import Mathlib

/-!
Shallow embedding of the notification ping engine
(`src/handlers/notification.rs` of mbartlett21/triagebot).

The Rust `handle` function is embedded as a pure Lean function over an
explicit environment `Env` supplying the external capabilities (directory
lookups, database client creation, ledger operations).  Side effects are
collected in an operation trace (`LedgerOp`), log emissions in a list of
strings, and the per-event dedup set `users_notified` as a list of ids.
Early returns, propagated errors (Rust `?`) and panics (Rust `unwrap`)
become an explicit `HandleResult`.

The two `lazy_static` regexes `PING_RE = @([-\w\d/]+)` and
`ACKNOWLEDGE_RE = acknowledge (https?://[^ ]+)` are embedded as fueled
scanners over `List Char` that reproduce leftmost, non-overlapping
`captures_iter` semantics (the Unicode class `\w` is modelled on its ASCII
subset, which the claims' inputs stay inside).

The event shape (`Event`, `comment_body`, `html_url`, `time`) and the
`Notification` record live in `github.rs` / `db/notifications.rs`, which are
not part of the sources; they are modelled from the spec (section 3 and 6):
an event exposes an optional text body, an optional canonical URL, a
timestamp and the acting user; a user carries a login and an optional
numeric id.
-/

/-- Character of the `PING_RE` class `[-\w\d/]`, with `\w` modelled on its
ASCII subset: letter, digit, underscore, plus the explicit `-` and `/`. -/
def isMentionChar (c : Char) : Bool :=
  c = '-' || c.isAlpha || c.isDigit || c = '_' || c = '/'

/-- The negation of the character class `[ ]`: `ACKNOWLEDGE_RE`'s URL part
`[^ ]+` stops only at an ASCII space. -/
def notSpace (c : Char) : Bool :=
  if c = ' ' then false else true

/-- Fueled scanner for `PING_RE.captures_iter`: at each position, an `@`
followed by a nonempty maximal run of mention characters yields the run as
a capture, and scanning resumes after the run; otherwise the scanner
advances one character. -/
def pingScanF : Nat → List Char → List String
  | 0, _ => []
  | _ + 1, [] => []
  | fuel + 1, c :: rest =>
    if c = '@' then
      let run := rest.takeWhile isMentionChar
      if run = [] then pingScanF fuel rest
      else String.mk run :: pingScanF fuel (rest.dropWhile isMentionChar)
    else pingScanF fuel rest

/-- All captures of `PING_RE` in the text, in scan order (with duplicates). -/
def pingScan (l : List Char) : List String :=
  pingScanF l.length l

/-- Drop an expected literal from the front of the input; `none` when the
input does not start with the literal. -/
def dropLit : List Char → List Char → Option (List Char)
  | [], l => some l
  | _ :: _, [] => none
  | p :: ps, c :: cs => if c = p then dropLit ps cs else none

/-- The URL part of `ACKNOWLEDGE_RE` anchored at the start of the input:
`http`, an optional `s`, `://`, then a nonempty maximal run of non-space
characters.  On success returns the capture and the remaining input. -/
def urlMatch (l : List Char) : Option (String × List Char) :=
  match dropLit "http".data l with
  | none => none
  | some l2 =>
    let s : List Char × List Char :=
      match l2 with
      | c :: t => if c = 's' then (['s'], t) else ([], l2)
      | [] => ([], l2)
    match dropLit "://".data s.2 with
    | none => none
    | some l4 =>
      let run := l4.takeWhile notSpace
      if run = [] then none
      else some (String.mk ("http".data ++ s.1 ++ "://".data ++ run),
                 l4.dropWhile notSpace)

/-- Try to match `ACKNOWLEDGE_RE` anchored at the start of the input:
the literal `"acknowledge "` followed by the URL part.  On success returns
the capture group (the URL) and the input remaining after the whole
match. -/
def matchAckAt (l : List Char) : Option (String × List Char) :=
  match dropLit "acknowledge ".data l with
  | none => none
  | some l1 => urlMatch l1

/-- Fueled scanner for `ACKNOWLEDGE_RE.captures_iter`: leftmost matches,
scanning resumes after each whole match (non-overlapping). -/
def ackScanF : Nat → List Char → List String
  | 0, _ => []
  | _ + 1, [] => []
  | fuel + 1, c :: rest =>
    match matchAckAt (c :: rest) with
    | some (cap, rest') => cap :: ackScanF fuel rest'
    | none => ackScanF fuel rest

/-- All captures of `ACKNOWLEDGE_RE` in the text, in scan order. -/
def ackScan (l : List Char) : List String :=
  ackScanF l.length l

/-- All `ACKNOWLEDGE_RE.captures_iter(body)` captures collected into a
`Vec` (line 31). -/
def extract_acks (body : String) : List String :=
  ackScan body.data

/-- Keep-first deduplication: the distinct captured mention tokens in scan
order of first occurrence.  `handle` collects the `PING_RE` captures into a
`HashSet<String>`; the set's contents are exactly these strings, and its
iteration order is modelled separately as an arbitrary reordering. -/
def dedupFirst (seen : List String) : List String → List String
  | [] => []
  | x :: xs => if x ∈ seen then dedupFirst seen xs else x :: dedupFirst (x :: seen) xs

/-- The distinct `PING_RE` captures of the body (the contents of `caps`). -/
def capsList (body : String) : List String :=
  dedupFirst [] (pingScan body.data)

/-- Positional specification of a mention capture: position `i` starts a
mention when the character there is `@` and the next character is in the
mention class. -/
def isMentionStart (l : List Char) (i : Nat) : Bool :=
  match l.get? i, l.get? (i + 1) with
  | some a, some b => a = '@' && isMentionChar b
  | _, _ => false

/-- The maximal run of mention characters following position `i`. -/
def runAt (l : List Char) (i : Nat) : List Char :=
  (l.drop (i + 1)).takeWhile isMentionChar

/-- Positional specification of `PING_RE` extraction: the maximal runs of
mention characters immediately preceded by `@`, listed in text order. -/
def mentionsSpec (l : List Char) : List String :=
  ((List.range l.length).filter (fun i => isMentionStart l i)).map
    (fun i => String.mk (runAt l i))

/-- The word ends with the literal marker `acknowledge`. -/
def markerSuffix : List Char → Bool
  | [] => false
  | c :: w => if c :: w = "acknowledge".data then true else markerSuffix w

/-- The word is an HTTP or HTTPS URL: the scheme followed by at least one
further character. -/
def validUrl (w : List Char) : Bool :=
  match dropLit "http://".data w with
  | some (_ :: _) => true
  | _ =>
    match dropLit "https://".data w with
    | some (_ :: _) => true
    | _ => false

/-- Fueled splitting of the text into its space-separated chunks. -/
def splitSpaceF : Nat → List Char → List (List Char)
  | 0, l => [l.takeWhile notSpace]
  | fuel + 1, l =>
    match l.dropWhile notSpace with
    | [] => [l.takeWhile notSpace]
    | _ :: r => l.takeWhile notSpace :: splitSpaceF fuel r

/-- The space-separated chunks of the text, in order. -/
def splitSpace (l : List Char) : List (List Char) :=
  splitSpaceF l.length l

/-- Word-level specification of acknowledgement extraction: scanning the
space-separated chunks left to right, a chunk ending with the marker
followed by a URL chunk yields that URL chunk, and scanning resumes after
the URL (matches do not overlap). -/
def acksSpecWords : List (List Char) → List String
  | w1 :: w2 :: rest =>
    if markerSuffix w1 && validUrl w2 then String.mk w2 :: acksSpecWords rest
    else acksSpecWords (w2 :: rest)
  | _ => []

/-- Specification of `extract_acknowledgements` over the amended
space-delimited reading: the URL chunks following marker-ending chunks, in
text order. -/
def acksSpec (l : List Char) : List String :=
  acksSpecWords (splitSpace l)

/-- Rust `str::split('/')` on a character list. -/
def splitSlash : List Char → List (List Char)
  | [] => [[]]
  | c :: rest =>
    let r := splitSlash rest
    if c = '/' then [] :: r
    else
      match r with
      | s :: ss => (c :: s) :: ss
      | [] => [[c]]

/-- The `github::User` record: a login and an optional numeric (i64) id. -/
structure User where
  login : String
  id : Option Int
deriving DecidableEq

/-- A member of a `github::Team`: display login and external numeric id
(an unsigned integer, modelled as `Nat`). -/
structure TeamMember where
  github : String
  github_id : Nat
deriving DecidableEq

/-- The `github::Team` record: display name and member list. -/
structure Team where
  name : String
  members : List TeamMember
deriving DecidableEq

/-- The `notifications::Notification` record (`db/notifications.rs` is
outside the sources; shape modelled from the spec, section 3). -/
structure Notification where
  user_id : Int
  origin_url : String
  origin_html : String
  time : Int
  short_description : Option String
  team_name : Option String
deriving DecidableEq

/-- Issue event actions (closed enum; modelled from the spec, which names
opened / edited / closed / reopened). -/
inductive IssuesAction where
  | Opened
  | Edited
  | Closed
  | Reopened
deriving DecidableEq

/-- Issue-comment event actions. -/
inductive IssueCommentAction where
  | Created
  | Edited
  | Deleted
deriving DecidableEq

/-- Issue payload.  Modelled from the spec: the normalized event exposes a
title, the acting user, an optional text body, an optional canonical URL
and a timestamp (`github.rs` is outside the sources). -/
structure IssueData where
  title : String
  user : User
  body : Option String
  html_url : Option String
  time : Int
deriving DecidableEq

/-- Comment payload.  Modelled from the spec, as for `IssueData`. -/
structure CommentData where
  user : User
  body : Option String
  html_url : Option String
  time : Int
deriving DecidableEq

/-- The `github::Event` type: the two event families handled by the
engine. -/
inductive Event where
  | Issue (action : IssuesAction) (issue : IssueData)
  | IssueComment (action : IssueCommentAction) (issue : IssueData) (comment : CommentData)
deriving DecidableEq

/-- Modelled from the spec: the event's optional text body accessor
(`event.comment_body()`, defined in the out-of-scope `github.rs`). -/
def Event.comment_body : Event → Option String
  | .Issue _ i => i.body
  | .IssueComment _ _ c => c.body

/-- Modelled from the spec: the event's optional canonical URL accessor
(`event.html_url()`, defined in the out-of-scope `github.rs`). -/
def Event.html_url : Event → Option String
  | .Issue _ i => i.html_url
  | .IssueComment _ _ c => c.html_url

/-- Modelled from the spec: the event's timestamp (`event.time()`). -/
def Event.time : Event → Int
  | .Issue _ i => i.time
  | .IssueComment _ _ c => c.time

/-- The acting user of the acknowledgement pass: `e.issue.user` for issue
events, `e.comment.user` for comment events (lines 37-40). -/
def eventActor : Event → User
  | .Issue _ i => i.user
  | .IssueComment _ _ c => c.user

/-- A ledger operation invoked by `handle`, recorded in invocation order. -/
inductive LedgerOp where
  | delete_ping (user_id : Int) (url : String)
  | record_username (user_id : Int) (login : String)
  | record_ping (n : Notification)
deriving DecidableEq

/-- The environment: the external capabilities consumed by `handle`.
Transport errors are the `error` branch; absence is `ok none`.  The three
ledger operations may independently fail; their failures are only logged. -/
structure Env where
  get_team : String → Except String (Option Team)
  get_id : String → Except String (Option Nat)
  make_db_client : Except String Unit
  delete_ping : Int → String → Except String Unit
  record_username : Int → String → Except String Unit
  record_ping : Notification → Except String Unit

/-- How `handle` terminates: a normal `Ok(())`, a propagated error
(Rust `?`), or a panic (Rust `unwrap` on `None`). -/
inductive HandleResult where
  | ok
  | err (msg : String)
  | panic (msg : String)
deriving DecidableEq

/-- The mutable state threaded through `handle`: the ledger-operation
trace, the emitted log lines, and the `users_notified` dedup set. -/
structure St where
  ops : List LedgerOp
  logs : List String
  seen : List Int
deriving DecidableEq

/-- The initial state of one `handle` invocation. -/
def initSt : St := { ops := [], logs := [], seen := [] }

/-- The observable outcome of `handle`: final result, operation trace in
invocation order, log lines. -/
structure HandleOut where
  result : HandleResult
  ops : List LedgerOp
  logs : List String
deriving DecidableEq

/-- Outcome of one loop body: continue with the next element, or abandon
the loops (early return, propagated error or panic). -/
inductive StepRes where
  | next (st : St)
  | stop (st : St) (r : HandleResult)
deriving DecidableEq

/-- The message of the panic a `user.id.unwrap()` on `None` would raise. -/
def idUnwrapMsg : String := "called Option.unwrap on a None value: user.id"

/-- The message of the panic `event.html_url().unwrap()` on `None` raises. -/
def urlUnwrapMsg : String := "called Option.unwrap on a None value: html_url"

/-- The message of the panic `iter.next().unwrap()` on a missing `/`-split
segment would raise. -/
def splitUnwrapMsg : String := "called Option.unwrap on a None value: split"

/-- The value of `i64::MAX`. -/
def i64MAX : Nat := 9223372036854775807

/-- Rust `i64::try_from` on an unsigned external id (lines 132 and 157). -/
def i64_try_from (n : Nat) : Except String Int :=
  if n ≤ i64MAX then .ok (Int.ofNat n) else .error "out of bounds"

/-- The per-member closure of the team branch (lines 131-139): convert the
member's external id, failing that single member when it is out of the i64
range, and build the `github::User`. -/
def convMember (m : TeamMember) : Except String User :=
  match i64_try_from m.github_id with
  | .ok i => .ok { login := m.github, id := some i }
  | .error e => .error e

/-- Rust `collect::<anyhow::Result<Vec<github::User>>>()` over the member
conversions (line 140): left-to-right, stopping at the first failure, so a
single failing member discards the whole team. -/
def collectUsers : List TeamMember → Except String (List User)
  | [] => .ok []
  | m :: rest =>
    match convMember m with
    | .error e => .error e
    | .ok u =>
      match collectUsers rest with
      | .error e => .error e
      | .ok us => .ok (u :: us)

/-- State effect of one `delete_ping` invocation (lines 50-63): the
deletion is invoked (recorded in the trace) and a failure is only
logged. -/
def ackDelSt (env : Env) (i : Int) (url : String) (st : St) : St :=
  match env.delete_ping i url with
  | .error _ =>
    { st with ops := st.ops ++ [.delete_ping i url],
              logs := st.logs ++ ["failed to delete notification: url=" ++ url] }
  | .ok _ => { st with ops := st.ops ++ [.delete_ping i url] }

/-- The acknowledgement loop (lines 36-64): for each captured URL, take the
acting user; on a missing id return `Ok(())` from `handle`; otherwise
create a database client (its failure propagates through `?`) and invoke
`delete_ping`. -/
def ackLoop (env : Env) (ev : Event) : List String → St → St × Option HandleResult
  | [], st => (st, none)
  | url :: rest, st =>
    match (eventActor ev).id with
    | none =>
      ({ st with logs :=
          st.logs ++ ["Skipping " ++ (eventActor ev).login ++ " because no id found"] },
       some .ok)
    | some i =>
      match env.make_db_client with
      | .error e => (st, some (.err e))
      | .ok _ => ackLoop env ev rest (ackDelSt env i url st)

/-- The notification record built at lines 190-199. -/
def mkNotif (ev : Event) (body sd : String) (tn : Option String) (uid : Int)
    (url : String) : Notification :=
  { user_id := uid
    origin_url := url
    origin_html := body
    time := ev.time
    short_description := some sd
    team_name := tn }

/-- State effect of one `record_username` invocation (lines 183-188): the
operation is invoked and a failure is only logged. -/
def recordUserSt (env : Env) (uid : Int) (login : String) (st : St) : St :=
  match env.record_username uid login with
  | .error _ =>
    { st with ops := st.ops ++ [.record_username uid login],
              logs := st.logs ++ ["record username failed"] }
  | .ok _ => { st with ops := st.ops ++ [.record_username uid login] }

/-- State effect of one `record_ping` invocation (lines 190-205): the
operation is invoked and a failure is only logged. -/
def recordPingSt (env : Env) (n : Notification) (st : St) : St :=
  match env.record_ping n with
  | .error _ =>
    { st with ops := st.ops ++ [.record_ping n],
              logs := st.logs ++ ["record ping failed"] }
  | .ok _ => { st with ops := st.ops ++ [.record_ping n] }

/-- The recording loop over resolved users (lines 177-206): dedup on the
unwrapped id against `users_notified`, `record_username`, then
`record_ping` with the event's unwrapped canonical URL; ledger failures
are only logged. -/
def recordLoop (env : Env) (ev : Event) (body sd : String) (team_name : Option String) :
    List User → St → StepRes
  | [], st => .next st
  | user :: rest, st =>
    match user.id with
    | none => .stop st (.panic idUnwrapMsg)
    | some uid =>
      if uid ∈ st.seen then recordLoop env ev body sd team_name rest st
      else
        let st2 := recordUserSt env uid user.login { st with seen := st.seen ++ [uid] }
        match ev.html_url with
        | none => .stop st2 (.panic urlUnwrapMsg)
        | some url =>
          recordLoop env ev body sd team_name rest
            (recordPingSt env (mkNotif ev body sd team_name uid url) st2)

/-- One mention token (lines 96-206).  A token containing `/` is a team
ping: split, resolve the team (absence and transport errors are logged and
the token skipped), convert all members all-or-nothing
(`collect::<Result<Vec<_>>>`).  Otherwise resolve the login: a transport
error propagates (`?`), absence skips the token, and the id is converted
to i64.  A failed `users` result is logged and the token skipped;
otherwise the recording loop runs. -/
def processToken (env : Env) (ev : Event) (body sd login : String) (st : St) :
    StepRes :=
  if '/' ∈ login.data then
    match splitSlash login.data with
    | _rust_lang :: team :: _ =>
      match env.get_team (String.mk team) with
      | .ok (some team) =>
        match collectUsers team.members with
        | .ok users => recordLoop env ev body sd (some team.name) users st
        | .error _ => .next { st with logs := st.logs ++ ["getting users failed"] }
      | .ok none =>
        .next { st with logs :=
          st.logs ++ ["team ping (" ++ login ++ ") failed to resolve to a known team"] }
      | .error _ =>
        .next { st with logs :=
          st.logs ++ ["team ping (" ++ login ++ ") failed to resolve to a known team"] }
    | _ => .stop st (.panic splitUnwrapMsg)
  else
    match env.get_id login with
    | .error _ => .stop st (.err ("failed to get user " ++ login ++ " ID"))
    | .ok none =>
      .next { st with logs := st.logs ++ ["Skipping " ++ login ++ " because no id found"] }
    | .ok (some n) =>
      match i64_try_from n with
      | .ok i => recordLoop env ev body sd none [{ login := login, id := some i }] st
      | .error _ => .next { st with logs := st.logs ++ ["getting users failed"] }

/-- The mention loop over the captured tokens in the processed order. -/
def mentionLoop (env : Env) (ev : Event) (body sd : String) :
    List String → St → St × Option HandleResult
  | [], st => (st, none)
  | login :: rest, st =>
    match processToken env ev body sd login st with
    | .next st' => mentionLoop env ev body sd rest st'
    | .stop st' r => (st', some r)

/-- The issue-family gate (lines 66-72): skip unless the action is
`Opened`. -/
def issueGateSkips : Event → Bool
  | .Issue a _ => if a = IssuesAction.Opened then false else true
  | _ => false

/-- The comment-family gate (lines 74-83): skip unless the action is
`Created`. -/
def commentGateSkips : Event → Bool
  | .IssueComment a _ _ => if a = IssueCommentAction.Created then false else true
  | _ => false

/-- The `short_description` computation (lines 85-88). -/
def shortDescription : Event → String
  | .Issue _ i => i.title
  | .IssueComment _ i _ => "Comment on " ++ i.title

/-- The embedded `handle` (lines 22-210).  `order` models the iteration
order of the `HashSet<String>` holding the captured mention tokens: it is
applied to the deduplicated captures in scan order, and an admissible run
of the Rust code is any `order` producing a permutation of them. -/
def handle (env : Env) (order : List String → List String) (ev : Event) : HandleOut :=
  match ev.comment_body with
  | none => { result := .ok, ops := [], logs := [] }
  | some body =>
    let acks := extract_acks body
    match ackLoop env ev acks initSt with
    | (st, some r) => { result := r, ops := st.ops, logs := st.logs }
    | (st, none) =>
      if issueGateSkips ev then { result := .ok, ops := st.ops, logs := st.logs }
      else if commentGateSkips ev then { result := .ok, ops := st.ops, logs := st.logs }
      else
        let sd := shortDescription ev
        let caps := order (capsList body)
        match mentionLoop env ev body sd caps st with
        | (st', some r) => { result := r, ops := st'.ops, logs := st'.logs }
        | (st', none) => { result := .ok, ops := st'.ops, logs := st'.logs }

/-- Select a recorded notification from a trace entry. -/
def pingKey : LedgerOp → Option Notification
  | .record_ping n => some n
  | _ => none

/-- Select a recorded username row from a trace entry. -/
def usernameKey : LedgerOp → Option (Int × String)
  | .record_username i l => some (i, l)
  | _ => none

/-- Select a notification-deletion invocation from a trace entry. -/
def deleteKey : LedgerOp → Option (Int × String)
  | .delete_ping i u => some (i, u)
  | _ => none

/-- The notifications recorded in an outcome, in invocation order. -/
def HandleOut.pings (o : HandleOut) : List Notification :=
  o.ops.filterMap pingKey

/-- The username rows recorded in an outcome, in invocation order. -/
def HandleOut.usernames (o : HandleOut) : List (Int × String) :=
  o.ops.filterMap usernameKey

/-- The notification deletions invoked in an outcome, in invocation
order. -/
def HandleOut.deletes (o : HandleOut) : List (Int × String) :=
  o.ops.filterMap deleteKey

/-- The state carried by a step outcome. -/
def StepRes.st : StepRes → St
  | .next st => st
  | .stop st _ => st

/-- The early-exit result of a step outcome, when any. -/
def StepRes.out : StepRes → Option HandleResult
  | .next _ => none
  | .stop _ r => some r

/-- Agreement of two environments on everything except the outcomes of the
three ledger operations (whose failures the code only logs). -/
def LedgerAgree (env env' : Env) : Prop :=
  env.get_team = env'.get_team ∧ env.get_id = env'.get_id ∧
    env.make_db_client = env'.make_db_client

/-- Agreement of two states on everything the control flow and the
operation trace can observe (the log lines may differ). -/
def StEq (st st' : St) : Prop :=
  st.ops = st'.ops ∧ st.seen = st'.seen

/-- Spec-level resolution of one mention token, mirroring the resolution
phase of the token loop: a token containing `/` resolves through the team
directory (with all-or-nothing member conversion), any other token through
the individual login lookup; every failure or absence contributes no
users. -/
def resolveMention (env : Env) (login : String) : List User × Option String :=
  if '/' ∈ login.data then
    match splitSlash login.data with
    | _ :: team :: _ =>
      match env.get_team (String.mk team) with
      | .ok (some team) =>
        match collectUsers team.members with
        | .ok users => (users, some team.name)
        | .error _ => ([], none)
      | .ok none => ([], none)
      | .error _ => ([], none)
    | _ => ([], none)
  else
    match env.get_id login with
    | .ok (some n) =>
      match i64_try_from n with
      | .ok i => ([{ login := login, id := some i }], none)
      | .error _ => ([], none)
    | _ => ([], none)

/-- The property that a numeric id was obtained from a successful directory
resolution: either an individual login lookup followed by a successful
i64 conversion, or membership in a resolved team with a successful
conversion of the member's external id. -/
def ResolvedId (env : Env) (i : Int) : Prop :=
  (∃ l m, env.get_id l = .ok (some m) ∧ i64_try_from m = .ok i) ∨
  (∃ t team mem, env.get_team t = .ok (some team) ∧ mem ∈ team.members ∧
      i64_try_from mem.github_id = .ok i)

/-- Environment for the C5 counterexample: `alice` resolves, teams do not,
every ledger operation succeeds. -/
def envC5 : Env :=
  { get_team := fun _ => .ok none
    get_id := fun l => if l = "alice" then .ok (some 7) else .ok none
    make_db_client := .ok ()
    delete_ping := fun _ _ => .ok ()
    record_username := fun _ _ => .ok ()
    record_ping := fun _ => .ok () }

/-- Body with one resolvable mention and two acknowledgement URLs. -/
def evC5body : String := "@alice acknowledge https://a acknowledge https://b"

/-- Comment-created event whose acting user has no resolved id. -/
def evC5 : Event :=
  .IssueComment .Created
    { title := "T", user := { login := "anon", id := none }, body := none,
      html_url := some "https://e/i", time := 0 }
    { user := { login := "anon", id := none }, body := some evC5body,
      html_url := some "https://e/1", time := 0 }

/-- The same event as `evC5` with the acting user's id resolved. -/
def evC5id : Event :=
  .IssueComment .Created
    { title := "T", user := { login := "anon", id := some 3 }, body := none,
      html_url := some "https://e/i", time := 0 }
    { user := { login := "anon", id := some 3 }, body := some evC5body,
      html_url := some "https://e/1", time := 0 }

/-- Environment for the C2 counterexample, part (a): resolving any
individual login fails with a transport error. -/
def envC2a : Env :=
  { get_team := fun _ => .ok none
    get_id := fun _ => .error "network"
    make_db_client := .ok ()
    delete_ping := fun _ _ => .ok ()
    record_username := fun _ _ => .ok ()
    record_ping := fun _ => .ok () }

/-- Issue-opened event whose body mentions `@alice`, no acknowledgements. -/
def evC2a : Event :=
  .Issue .Opened
    { title := "T", user := { login := "actor", id := some 1 },
      body := some "@alice", html_url := some "https://e/i", time := 0 }

/-- Environment for the C2 counterexample, part (b): creating the database
client fails. -/
def envC2b : Env :=
  { get_team := fun _ => .ok none
    get_id := fun _ => .ok none
    make_db_client := .error "db down"
    delete_ping := fun _ _ => .ok ()
    record_username := fun _ _ => .ok ()
    record_ping := fun _ => .ok () }

/-- Comment-created event with one acknowledgement URL and a resolved
acting user. -/
def evC2b : Event :=
  .IssueComment .Created
    { title := "T", user := { login := "actor", id := some 1 }, body := none,
      html_url := some "https://e/i", time := 0 }
    { user := { login := "actor", id := some 1 },
      body := some "acknowledge https://x", html_url := some "https://e/1",
      time := 0 }

/-- Environment for the C6 counterexample: team `core` has one member
whose external id exceeds `i64::MAX` and one in-range member. -/
def envC6 : Env :=
  { get_team := fun t =>
      if t = "core" then
        .ok (some { name := "Core",
                    members := [⟨"big", 9223372036854775808⟩, ⟨"y", 5⟩] })
      else .ok none
    get_id := fun _ => .ok none
    make_db_client := .ok ()
    delete_ping := fun _ _ => .ok ()
    record_username := fun _ _ => .ok ()
    record_ping := fun _ => .ok () }

/-- Issue-opened event whose body pings the team `org/core`. -/
def evC6 : Event :=
  .Issue .Opened
    { title := "T", user := { login := "actor", id := some 1 },
      body := some "@org/core", html_url := some "https://e/i", time := 0 }

/-- The team of the C6 counterexample: one member above `i64::MAX`, one in
range. -/
def teamC6 : Team :=
  { name := "Core", members := [⟨"big", 9223372036854775808⟩, ⟨"y", 5⟩] }

/-- Environment for the C4 witness: `alice` resolves, ledger succeeds. -/
def envC4 : Env :=
  { get_team := fun _ => .ok none
    get_id := fun l => if l = "alice" then .ok (some 7) else .ok none
    make_db_client := .ok ()
    delete_ping := fun _ _ => .ok ()
    record_username := fun _ _ => .ok ()
    record_ping := fun _ => .ok () }

/-- Issue-edited event (gate-suppressed) with an acknowledgement and a
mention in the body and a resolved acting user. -/
def evC4 : Event :=
  .Issue .Edited
    { title := "T", user := { login := "actor", id := some 2 },
      body := some "acknowledge https://x @alice", html_url := some "https://e/i",
      time := 0 }

/-- Issue payload for the C3 witness. -/
def iC3 : IssueData :=
  { title := "T", user := { login := "actor", id := some 2 },
    body := some "@alice acknowledge https://x", html_url := some "https://e/i",
    time := 0 }

/-- Comment payload for the C3 witness. -/
def cC3 : CommentData :=
  { user := { login := "actor", id := some 2 },
    body := some "@alice acknowledge https://x", html_url := some "https://e/1",
    time := 0 }

/-- Environment for the C3 witness. -/
def envC3 : Env :=
  { get_team := fun _ => .ok none
    get_id := fun l => if l = "alice" then .ok (some 7) else .ok none
    make_db_client := .ok ()
    delete_ping := fun _ _ => .ok ()
    record_username := fun _ _ => .ok ()
    record_ping := fun _ => .ok () }

/-- Agreement of two step outcomes up to log lines. -/
def ResEq (r r' : StepRes) : Prop :=
  StEq r.st r'.st ∧ r.out = r'.out

/-- Environment for the C2 amended-claim witness: ledger operations fail,
directory lookups succeed. -/
def envC2w : Env :=
  { get_team := fun _ => .ok none
    get_id := fun l => if l = "alice" then .ok (some 7) else .ok none
    make_db_client := .ok ()
    delete_ping := fun _ _ => .error "delete failed"
    record_username := fun _ _ => .error "username failed"
    record_ping := fun _ => .error "ping failed" }

/-- The same environment as `envC2w` with every ledger operation
succeeding. -/
def envC2w' : Env :=
  { get_team := fun _ => .ok none
    get_id := fun l => if l = "alice" then .ok (some 7) else .ok none
    make_db_client := .ok ()
    delete_ping := fun _ _ => .ok ()
    record_username := fun _ _ => .ok ()
    record_ping := fun _ => .ok () }

/-- Comment-created event with an acknowledgement and a mention, resolved
acting user. -/
def evC2w : Event :=
  .IssueComment .Created
    { title := "T", user := { login := "actor", id := some 1 }, body := none,
      html_url := some "https://e/i", time := 0 }
    { user := { login := "actor", id := some 1 },
      body := some "@alice acknowledge https://x", html_url := some "https://e/1",
      time := 0 }

/-- All notification ids recorded in the trace arose from a successful
directory resolution. -/
def PingsResolved (env : Env) (ops : List LedgerOp) : Prop :=
  ∀ n ∈ ops.filterMap pingKey, ResolvedId env n.user_id

/-- Environment for the C7 witness: only `alice` resolves. -/
def envC7 : Env :=
  { get_team := fun _ => .ok none
    get_id := fun l => if l = "alice" then .ok (some 7) else .ok none
    make_db_client := .ok ()
    delete_ping := fun _ _ => .ok ()
    record_username := fun _ _ => .ok ()
    record_ping := fun _ => .ok () }

/-- Issue-opened event for the C7 witness. -/
def evC7 : Event :=
  .Issue .Opened
    { title := "T", user := { login := "actor", id := some 1 },
      body := some "@zoe @alice", html_url := some "https://e/i", time := 0 }

/-- Environment for the C10 witness. -/
def envC10 : Env :=
  { get_team := fun _ => .ok none
    get_id := fun l => if l = "alice" then .ok (some 7) else .ok none
    make_db_client := .ok ()
    delete_ping := fun _ _ => .ok ()
    record_username := fun _ _ => .ok ()
    record_ping := fun _ => .ok () }

/-- Issue-opened event whose canonical URL accessor yields `none` and
whose body mentions a resolvable user. -/
def evC10 : Event :=
  .Issue .Opened
    { title := "T", user := { login := "actor", id := some 1 },
      body := some "@alice", html_url := none, time := 0 }

/-- The (user id, team name) pairs of the notifications recorded in a
trace, in order. -/
def pingPairs (ops : List LedgerOp) : List (Int × Option String) :=
  (ops.filterMap pingKey).map (fun n => (n.user_id, n.team_name))

/-- Spec-level recording fold over one token's resolved users: emit one
(id, team name) pair per user whose id is not yet seen, first occurrence
in traversal order wins, threading the seen set. -/
def specUserFold (tn : Option String) : List User → List Int →
    List (Int × Option String) × List Int
  | [], seen => ([], seen)
  | u :: rest, seen =>
    match u.id with
    | none => specUserFold tn rest seen
    | some i =>
      if i ∈ seen then specUserFold tn rest seen
      else
        let r := specUserFold tn rest (seen ++ [i])
        ((i, tn) :: r.1, r.2)

/-- Spec-level mention pass: resolve each token in the given processing
order and fold its users with first-occurrence-wins dedup across the whole
event. -/
def specRecords (env : Env) : List String → List Int → List (Int × Option String)
  | [], _ => []
  | login :: rest, seen =>
    let r := resolveMention env login
    let f := specUserFold r.2 r.1 seen
    f.1 ++ specRecords env rest f.2

/-- Environment for the C9 counterexample: `alice` has id 7 and is also a
member of team `core` together with `bob` (id 9). -/
def envC9 : Env :=
  { get_team := fun t =>
      if t = "core" then
        .ok (some { name := "Core", members := [⟨"alice", 7⟩, ⟨"bob", 9⟩] })
      else .ok none
    get_id := fun l => if l = "alice" then .ok (some 7) else .ok none
    make_db_client := .ok ()
    delete_ping := fun _ _ => .ok ()
    record_username := fun _ _ => .ok ()
    record_ping := fun _ => .ok () }

/-- Comment-created event whose body mentions `alice` directly first, then
the team `t/core`. -/
def evC9 : Event :=
  .IssueComment .Created
    { title := "T", user := { login := "actor", id := some 1 }, body := none,
      html_url := some "https://e/i", time := 0 }
    { user := { login := "actor", id := some 1 },
      body := some "hi @alice, see @t/core", html_url := some "https://e/1",
      time := 0 }

/-- The user ids of the notifications recorded in a trace, in order. -/
def pingIds (ops : List LedgerOp) : List Int :=
  (ops.filterMap pingKey).map Notification.user_id

/-- The dedup invariant: the recorded notification ids are pairwise
distinct and all tracked in the `users_notified` set. -/
def SeenInv (st : St) : Prop :=
  (pingIds st.ops).Nodup ∧ ∀ i ∈ pingIds st.ops, i ∈ st.seen

-- ===================== THEOREMS =====================

/-- Splitting never yields an empty list of segments. -/
theorem splitSlash_ne_nil : ∀ l : List Char, splitSlash l ≠ [] := by
  intro l
  induction l with
  | nil => simp [splitSlash]
  | cons c rest ih =>
    simp only [splitSlash]
    split
    · simp
    · split
      · simp
      · simp

/-- A string containing `/` splits into at least two segments, so the two
`iter.next().unwrap()` calls of the team branch cannot panic. -/
theorem splitSlash_two : ∀ l : List Char, '/' ∈ l →
    ∃ a b r, splitSlash l = a :: b :: r := by
  intro l
  induction l with
  | nil => intro h; cases h
  | cons c rest ih =>
    intro h
    by_cases hc : c = '/'
    · subst hc
      rcases hx : splitSlash rest with _ | ⟨s, ss⟩
      · exact absurd hx (splitSlash_ne_nil rest)
      · exact ⟨[], s, ss, by simp [splitSlash, hx]⟩
    · have h' : '/' ∈ rest := by
        rcases List.mem_cons.mp h with h | h
        · exact absurd h.symm hc
        · exact h
      rcases ih h' with ⟨a, b, r, hab⟩
      refine ⟨c :: a, b, r, ?_⟩
      simp [splitSlash, hab, hc]

/-- A member whose external id exceeds `i64::MAX` makes the whole
`collect` fail. -/
theorem collectUsers_error_of_big (members : List TeamMember)
    (m : TeamMember) (hm : m ∈ members) (hbig : i64MAX < m.github_id) :
    ∃ e, collectUsers members = .error e := by
  induction members with
  | nil => cases hm
  | cons a rest ih =>
    cases hc : convMember a with
    | error e => exact ⟨e, by simp [collectUsers, hc]⟩
    | ok u =>
      rcases List.mem_cons.mp hm with rfl | h
      · have hle : ¬ m.github_id ≤ i64MAX := by omega
        simp [convMember, i64_try_from, hle] at hc
      · rcases ih h with ⟨e, he⟩
        exact ⟨e, by simp [collectUsers, hc, he]⟩

/-- Claim C5 counterexample: on an event whose acting user has no resolved
numeric id, `handle` returns `Ok(())` from inside the acknowledgement loop
with an empty operation trace: the remaining acknowledgement URL is not
deleted and the mention pass does not run, although the same body carries
a second acknowledgement and a mention that resolves (as the id-resolved
variant of the event shows). -/
theorem C5_cex :
    extract_acks evC5body = ["https://a", "https://b"]
    ∧ capsList evC5body = ["alice"]
    ∧ handle envC5 (fun l => l) evC5 =
        { result := .ok, ops := [],
          logs := ["Skipping anon because no id found"] }
    ∧ (handle envC5 (fun l => l) evC5id).pings ≠ [] := by
  decide

/-- Claim C5 (corrected): during the acknowledgement pass, if the acting
user has no resolved numeric id, `handle` immediately returns `Ok(())` at
the first acknowledgement URL: no deletion is invoked, the remaining URLs
are not processed, and the mention pass is skipped. -/
theorem C5_amended_thm (env : Env) (order : List String → List String)
    (ev : Event) (body url : String) (rest : List String)
    (hbody : ev.comment_body = some body)
    (hacks : extract_acks body = url :: rest)
    (hid : (eventActor ev).id = none) :
    handle env order ev =
      { result := .ok, ops := [],
        logs := ["Skipping " ++ (eventActor ev).login ++ " because no id found"] } := by
  simp [handle, hbody, hacks, ackLoop, hid, initSt]

/-- Witness for the corrected C5 theorem at a concrete input. -/
theorem C5_amended_wit :
    handle envC5 (fun l => l) evC5 =
      { result := .ok, ops := [],
        logs := ["Skipping anon because no id found"] } :=
  C5_amended_thm envC5 (fun l => l) evC5 evC5body "https://a" ["https://b"]
    rfl (by decide) rfl

/-- Claim C2 counterexample: a transport failure resolving an individual
login makes `handle` return an error (the `?` on `get_id`), and a failure
creating the database client during the acknowledgement pass also makes
`handle` return an error (the `?` on `make_db_client`) — both contradict
the claim that these failures are caught and logged. -/
theorem C2_cex :
    (handle envC2a (fun l => l) evC2a).result = .err "failed to get user alice ID"
    ∧ (handle envC2b (fun l => l) evC2b).result = .err "db down" := by
  decide

/-- Claim C6 counterexample: team `core` has members `big` (external id
`2^63`, out of the i64 range) and `y` (id 5).  The claim predicts a
notification for `y`; the code records none at all, because the
`collect::<Result<Vec<_>>>` fails the whole team on the first bad member. -/
theorem C6_cex :
    (handle envC6 (fun l => l) evC6).pings = []
    ∧ (handle envC6 (fun l => l) evC6).usernames = []
    ∧ "getting users failed" ∈ (handle envC6 (fun l => l) evC6).logs := by
  decide

/-- Claim C6 (corrected): when expanding a team mention, a single member
whose external id does not fit i64 fails the whole member conversion, so
the entire team token is skipped with an error logged and no notification
is recorded for any member of that team; members are recorded only when
every member's id converts. -/
theorem C6_amended_thm (env : Env) (ev : Event) (body sd login : String)
    (st : St) (ns tn : List Char) (ps : List (List Char)) (team : Team)
    (hslash : '/' ∈ login.data)
    (hsplit : splitSlash login.data = ns :: tn :: ps)
    (hteam : env.get_team (String.mk tn) = .ok (some team)) :
    ((∃ m ∈ team.members, i64MAX < m.github_id) →
        ∃ e, collectUsers team.members = .error e)
    ∧ (∀ e, collectUsers team.members = .error e →
        processToken env ev body sd login st =
          .next { st with logs := st.logs ++ ["getting users failed"] })
    ∧ (∀ users, collectUsers team.members = .ok users →
        processToken env ev body sd login st =
          recordLoop env ev body sd (some team.name) users st) := by
  refine ⟨?_, ?_, ?_⟩
  · rintro ⟨m, hm, hbig⟩
    exact collectUsers_error_of_big team.members m hm hbig
  · intro e he
    simp [processToken, hslash, hsplit, hteam, he]
  · intro users hu
    simp [processToken, hslash, hsplit, hteam, hu]

/-- Witness for the corrected C6 theorem at a concrete input. -/
theorem C6_amended_wit :
    processToken envC6 evC6 "@org/core" "T" "org/core" initSt =
      .next { initSt with logs := initSt.logs ++ ["getting users failed"] } :=
  (C6_amended_thm envC6 evC6 "@org/core" "T" "org/core" initSt
      "org".data "core".data [] teamC6 (by decide) (by decide) rfl).2.1
    "out of bounds" rfl

/-- Trace effect of one deletion step. -/
theorem ackDelSt_ops (env : Env) (i : Int) (url : String) (st : St) :
    (ackDelSt env i url st).ops = st.ops ++ [.delete_ping i url] := by
  unfold ackDelSt
  cases env.delete_ping i url <;> rfl

/-- A deletion step does not touch the dedup set. -/
theorem ackDelSt_seen (env : Env) (i : Int) (url : String) (st : St) :
    (ackDelSt env i url st).seen = st.seen := by
  unfold ackDelSt
  cases env.delete_ping i url <;> rfl

/-- A deletion step only appends log lines. -/
theorem ackDelSt_logs (env : Env) (i : Int) (url : String) (st : St) :
    ∃ d, (ackDelSt env i url st).logs = st.logs ++ d := by
  unfold ackDelSt
  cases env.delete_ping i url
  · exact ⟨["failed to delete notification: url=" ++ url], rfl⟩
  · exact ⟨[], by simp⟩

/-- Trace effect of one username-recording step. -/
theorem recordUserSt_ops (env : Env) (uid : Int) (login : String) (st : St) :
    (recordUserSt env uid login st).ops = st.ops ++ [.record_username uid login] := by
  unfold recordUserSt
  cases env.record_username uid login <;> rfl

/-- A username-recording step does not touch the dedup set. -/
theorem recordUserSt_seen (env : Env) (uid : Int) (login : String) (st : St) :
    (recordUserSt env uid login st).seen = st.seen := by
  unfold recordUserSt
  cases env.record_username uid login <;> rfl

/-- Trace effect of one notification-recording step. -/
theorem recordPingSt_ops (env : Env) (n : Notification) (st : St) :
    (recordPingSt env n st).ops = st.ops ++ [.record_ping n] := by
  unfold recordPingSt
  cases env.record_ping n <;> rfl

/-- A notification-recording step does not touch the dedup set. -/
theorem recordPingSt_seen (env : Env) (n : Notification) (st : St) :
    (recordPingSt env n st).seen = st.seen := by
  unfold recordPingSt
  cases env.record_ping n <;> rfl

/-- The acknowledgement loop never touches the dedup set. -/
theorem ackLoop_seen (env : Env) (ev : Event) :
    ∀ urls st, ((ackLoop env ev urls st).1).seen = st.seen := by
  intro urls
  induction urls with
  | nil => intro st; rfl
  | cons url rest ih =>
    intro st
    rw [ackLoop]
    cases hid : (eventActor ev).id with
    | none => rfl
    | some i =>
      cases hdb : env.make_db_client with
      | error e => rfl
      | ok u => exact (ih (ackDelSt env i url st)).trans (ackDelSt_seen env i url st)

/-- Every operation present after the acknowledgement loop is either an
operation already in the incoming trace or a notification deletion. -/
theorem ackLoop_ops (env : Env) (ev : Event) :
    ∀ urls st op, op ∈ ((ackLoop env ev urls st).1).ops →
      op ∈ st.ops ∨ ∃ u r, op = LedgerOp.delete_ping u r := by
  intro urls
  induction urls with
  | nil => intro st op h; exact .inl h
  | cons url rest ih =>
    intro st op h
    rw [ackLoop] at h
    cases hid : (eventActor ev).id with
    | none => rw [hid] at h; exact .inl h
    | some i =>
      rw [hid] at h
      cases hdb : env.make_db_client with
      | error e => rw [hdb] at h; exact .inl h
      | ok u =>
        rw [hdb] at h
        rcases ih (ackDelSt env i url st) op h with hin | hdel
        · rw [ackDelSt_ops] at hin
          rcases List.mem_append.mp hin with hin | hin
          · exact .inl hin
          · exact .inr ⟨i, url, List.mem_singleton.mp hin⟩
        · exact .inr hdel

/-- With a resolved acting user and a working database client, the
acknowledgement loop runs to completion, invoking exactly one deletion per
URL, keyed by the acting user's id, in order. -/
theorem ackLoop_run (env : Env) (ev : Event) (uid : Int)
    (hid : (eventActor ev).id = some uid)
    (hdb : env.make_db_client = .ok ()) :
    ∀ urls st, ∃ lg, ackLoop env ev urls st =
      ({ ops := st.ops ++ urls.map (fun url => LedgerOp.delete_ping uid url),
         logs := st.logs ++ lg, seen := st.seen }, none) := by
  intro urls
  induction urls with
  | nil => intro st; exact ⟨[], by simp [ackLoop]⟩
  | cons url rest ih =>
    intro st
    have hstep : ackLoop env ev (url :: rest) st =
        ackLoop env ev rest (ackDelSt env uid url st) := by
      rw [ackLoop, hid, hdb]
    rcases ackDelSt_logs env uid url st with ⟨d, hlogd⟩
    rcases ih (ackDelSt env uid url st) with ⟨lg, hlg⟩
    refine ⟨d ++ lg, ?_⟩
    rw [hstep, hlg, ackDelSt_ops, hlogd, ackDelSt_seen]
    simp

/-- The recording loop only appends record operations to the trace (never
a deletion). -/
theorem recordLoop_ops (env : Env) (ev : Event) (body sd : String)
    (tn : Option String) :
    ∀ users st, ∃ d, ((recordLoop env ev body sd tn users st).st).ops = st.ops ++ d
      ∧ d.filterMap deleteKey = [] := by
  intro users
  induction users with
  | nil => intro st; exact ⟨[], by simp [recordLoop, StepRes.st]⟩
  | cons user rest ih =>
    intro st
    rw [recordLoop]
    cases hid : user.id with
    | none => exact ⟨[], by simp [StepRes.st]⟩
    | some uid =>
      by_cases hseen : uid ∈ st.seen
      · simp only [hseen, if_true]
        exact ih st
      · simp only [hseen, if_false]
        cases hurl : ev.html_url with
        | none =>
          refine ⟨[.record_username uid user.login], ?_, by simp [deleteKey]⟩
          show (recordUserSt env uid user.login { st with seen := st.seen ++ [uid] }).ops = _
          rw [recordUserSt_ops]
        | some url =>
          rcases ih (recordPingSt env (mkNotif ev body sd tn uid url)
              (recordUserSt env uid user.login { st with seen := st.seen ++ [uid] }))
            with ⟨d, hd, hdel⟩
          refine ⟨.record_username uid user.login ::
              .record_ping (mkNotif ev body sd tn uid url) :: d, ?_, ?_⟩
          · show ((recordLoop env ev body sd tn rest
                (recordPingSt env (mkNotif ev body sd tn uid url)
                  (recordUserSt env uid user.login
                    { st with seen := st.seen ++ [uid] }))).st).ops = _
            rw [hd, recordPingSt_ops, recordUserSt_ops]
            simp
          · simp [List.filterMap_cons, deleteKey, hdel]

/-- One mention token only appends record operations to the trace. -/
theorem processToken_ops (env : Env) (ev : Event) (body sd login : String)
    (st : St) :
    ∃ d, ((processToken env ev body sd login st).st).ops = st.ops ++ d
      ∧ d.filterMap deleteKey = [] := by
  unfold processToken
  split
  · split
    · split
      · split
        · exact recordLoop_ops env ev body sd _ _ _
        · exact ⟨[], by simp [StepRes.st]⟩
      · exact ⟨[], by simp [StepRes.st]⟩
      · exact ⟨[], by simp [StepRes.st]⟩
    · exact ⟨[], by simp [StepRes.st]⟩
  · split
    · exact ⟨[], by simp [StepRes.st]⟩
    · exact ⟨[], by simp [StepRes.st]⟩
    · split
      · exact recordLoop_ops env ev body sd _ _ _
      · exact ⟨[], by simp [StepRes.st]⟩

/-- The mention loop only appends record operations to the trace. -/
theorem mentionLoop_ops (env : Env) (ev : Event) (body sd : String) :
    ∀ logins st, ∃ d, ((mentionLoop env ev body sd logins st).1).ops = st.ops ++ d
      ∧ d.filterMap deleteKey = [] := by
  intro logins
  induction logins with
  | nil => intro st; exact ⟨[], by simp [mentionLoop]⟩
  | cons login rest ih =>
    intro st
    rw [mentionLoop]
    rcases processToken_ops env ev body sd login st with ⟨d1, hd1, hdel1⟩
    rcases hpt : processToken env ev body sd login st with st' | ⟨st', r⟩
    · rw [hpt] at hd1
      simp only [StepRes.st] at hd1
      rcases ih st' with ⟨d2, hd2, hdel2⟩
      refine ⟨d1 ++ d2, ?_, ?_⟩
      · show ((mentionLoop env ev body sd rest st').1).ops = _
        rw [hd2, hd1, List.append_assoc]
      · simp [List.filterMap_append, hdel1, hdel2]
    · rw [hpt] at hd1
      simp only [StepRes.st] at hd1
      exact ⟨d1, hd1, hdel1⟩

/-- Unfolding of `handle` on an event with a text body. -/
theorem handle_eq (env : Env) (order : List String → List String) (ev : Event)
    (body : String) (hbody : ev.comment_body = some body) :
    handle env order ev =
      match ackLoop env ev (extract_acks body) initSt with
      | (st, some r) => { result := r, ops := st.ops, logs := st.logs }
      | (st, none) =>
        if issueGateSkips ev then { result := .ok, ops := st.ops, logs := st.logs }
        else if commentGateSkips ev then { result := .ok, ops := st.ops, logs := st.logs }
        else
          match mentionLoop env ev body (shortDescription ev)
              (order (capsList body)) st with
          | (st', some r) => { result := r, ops := st'.ops, logs := st'.logs }
          | (st', none) => { result := .ok, ops := st'.ops, logs := st'.logs } := by
  unfold handle
  rw [hbody]

/-- On an event without a text body, `handle` is a no-op. -/
theorem handle_none (env : Env) (order : List String → List String) (ev : Event)
    (h : ev.comment_body = none) :
    handle env order ev = { result := .ok, ops := [], logs := [] } := by
  unfold handle
  rw [h]

/-- Deletions mapped over URLs project back to their keys. -/
theorem filterMap_deleteKey_map (uid : Int) (urls : List String) :
    (urls.map (fun url => LedgerOp.delete_ping uid url)).filterMap deleteKey
      = urls.map (fun url => (uid, url)) := by
  induction urls with
  | nil => rfl
  | cons u rest ih => simp [List.map_cons, List.filterMap_cons, deleteKey, ih]

/-- A trace of deletions records no notification and no username row. -/
theorem deletes_only_no_records (ops : List LedgerOp)
    (h : ∀ op ∈ ops, ∃ u r, op = LedgerOp.delete_ping u r) :
    ops.filterMap pingKey = [] ∧ ops.filterMap usernameKey = [] := by
  induction ops with
  | nil => simp
  | cons op rest ih =>
    rcases h op (List.mem_cons_self op rest) with ⟨u, r, rfl⟩
    have ht := ih (fun op hop => h op (List.mem_cons_of_mem _ hop))
    simp [List.filterMap_cons, pingKey, usernameKey, ht.1, ht.2]

/-- The acknowledgement loop depends on the event only through its acting
user. -/
theorem ackLoop_actor (env : Env) (ev ev' : Event)
    (h : eventActor ev = eventActor ev') :
    ∀ urls st, ackLoop env ev urls st = ackLoop env ev' urls st := by
  intro urls
  induction urls with
  | nil => intro st; rfl
  | cons url rest ih =>
    intro st
    rw [ackLoop, ackLoop, h]
    cases (eventActor ev').id with
    | none => rfl
    | some i =>
      cases env.make_db_client with
      | error e => rfl
      | ok u => exact ih (ackDelSt env i url st)

/-- On a gate-suppressed event, every trace entry of `handle` is a
deletion (the acknowledgement pass is the only side-effect source). -/
theorem handle_skip_ops (env : Env) (order : List String → List String)
    (ev : Event)
    (hg : issueGateSkips ev = true ∨ commentGateSkips ev = true) :
    ∀ op ∈ (handle env order ev).ops, ∃ u r, op = LedgerOp.delete_ping u r := by
  intro op hop
  cases hbody : ev.comment_body with
  | none =>
    rw [handle_none env order ev hbody] at hop
    simp at hop
  | some body =>
    have hh := handle_eq env order ev body hbody
    rcases hack : ackLoop env ev (extract_acks body) initSt with ⟨stA, out⟩
    rw [hack] at hh
    have hall : ∀ op' ∈ stA.ops, ∃ u r, op' = LedgerOp.delete_ping u r := by
      intro op' hop'
      have hmem : op' ∈ ((ackLoop env ev (extract_acks body) initSt).1).ops := by
        rw [hack]; exact hop'
      rcases ackLoop_ops env ev (extract_acks body) initSt op' hmem with h0 | hd
      · simp [initSt] at h0
      · exact hd
    cases out with
    | some r =>
      rw [hh] at hop
      exact hall op hop
    | none =>
      by_cases hg1 : issueGateSkips ev = true
      · simp only [hg1, if_true] at hh
        rw [hh] at hop
        exact hall op hop
      · have hg2 : commentGateSkips ev = true := by
          rcases hg with hgi | hgc
          · exact absurd hgi hg1
          · exact hgc
        simp only [hg1, hg2, if_true, if_false, Bool.false_eq_true] at hh
        rw [hh] at hop
        exact hall op hop

/-- Claim C3: for every Issue event whose action is not `opened` and every
IssueComment event whose action is not `created`, `handle` records zero
notifications and zero username rows and its only possible side effects
are the acknowledgement-pass deletions; the acknowledgement pass itself is
action-independent; and on the same payload with the passing action - the
issue with action `opened`, and the comment with action `created` - the
trace of `handle` is exactly the trace of the normal mention pass
continued from the acknowledgement-pass state. -/
theorem C3_thm (env : Env) (order : List String → List String)
    (a : IssuesAction) (ca : IssueCommentAction) (i : IssueData) (c : CommentData)
    (ha : a ≠ IssuesAction.Opened) (hca : ca ≠ IssueCommentAction.Created) :
    ((handle env order (.Issue a i)).pings = []
      ∧ (handle env order (.Issue a i)).usernames = []
      ∧ ∀ op ∈ (handle env order (.Issue a i)).ops, ∃ u r, op = LedgerOp.delete_ping u r)
    ∧ ((handle env order (.IssueComment ca i c)).pings = []
      ∧ (handle env order (.IssueComment ca i c)).usernames = []
      ∧ ∀ op ∈ (handle env order (.IssueComment ca i c)).ops,
          ∃ u r, op = LedgerOp.delete_ping u r)
    ∧ (∀ urls st, ackLoop env (.Issue a i) urls st =
        ackLoop env (.Issue IssuesAction.Opened i) urls st)
    ∧ (∀ body st, i.body = some body →
        ackLoop env (.Issue IssuesAction.Opened i) (extract_acks body) initSt = (st, none) →
        (handle env order (.Issue IssuesAction.Opened i)).ops =
          ((mentionLoop env (.Issue IssuesAction.Opened i) body i.title
              (order (capsList body)) st).1).ops)
    ∧ (∀ body st, c.body = some body →
        ackLoop env (.IssueComment IssueCommentAction.Created i c)
            (extract_acks body) initSt = (st, none) →
        (handle env order (.IssueComment IssueCommentAction.Created i c)).ops =
          ((mentionLoop env (.IssueComment IssueCommentAction.Created i c) body
              ("Comment on " ++ i.title) (order (capsList body)) st).1).ops) := by
  have hgi : issueGateSkips (.Issue a i) = true := by
    simp [issueGateSkips, ha]
  have hgc : commentGateSkips (.IssueComment ca i c) = true := by
    simp [commentGateSkips, hca]
  have hIssue := handle_skip_ops env order (.Issue a i) (.inl hgi)
  have hComment := handle_skip_ops env order (.IssueComment ca i c) (.inr hgc)
  refine ⟨⟨?_, ?_, hIssue⟩, ⟨?_, ?_, hComment⟩, ?_, ?_, ?_⟩
  · exact (deletes_only_no_records _ hIssue).1
  · exact (deletes_only_no_records _ hIssue).2
  · exact (deletes_only_no_records _ hComment).1
  · exact (deletes_only_no_records _ hComment).2
  · exact ackLoop_actor env (.Issue a i) (.Issue IssuesAction.Opened i) rfl
  · intro body st hbody hackdone
    have hh := handle_eq env order (.Issue IssuesAction.Opened i) body hbody
    rw [hackdone] at hh
    simp only [shortDescription] at hh
    rcases hml : mentionLoop env (.Issue IssuesAction.Opened i) body i.title
        (order (capsList body)) st with ⟨st', out⟩
    have hg1 : issueGateSkips (.Issue IssuesAction.Opened i) = false := rfl
    have hg2 : commentGateSkips (.Issue IssuesAction.Opened i) = false := rfl
    simp only [hg1, hg2, Bool.false_eq_true, if_false] at hh
    rw [hml] at hh
    rw [hh]
    cases out <;> rfl
  · intro body st hbody hackdone
    have hh := handle_eq env order
      (.IssueComment IssueCommentAction.Created i c) body hbody
    rw [hackdone] at hh
    simp only [shortDescription] at hh
    rcases hml : mentionLoop env (.IssueComment IssueCommentAction.Created i c)
        body ("Comment on " ++ i.title) (order (capsList body)) st with ⟨st', out⟩
    have hg1 : issueGateSkips (.IssueComment IssueCommentAction.Created i c)
        = false := rfl
    have hg2 : commentGateSkips (.IssueComment IssueCommentAction.Created i c)
        = false := rfl
    simp only [hg1, hg2, Bool.false_eq_true, if_false] at hh
    rw [hml] at hh
    rw [hh]
    cases out <;> rfl

/-- Witness for the C3 theorem at a concrete input: the two suppressed
events record nothing, and the comment with action `created` on the same
body runs the normal mention pass after the acknowledgement pass. -/
theorem C3_wit :
    ((handle envC3 (fun l => l) (.Issue IssuesAction.Edited iC3)).pings = []
      ∧ (handle envC3 (fun l => l)
          (.IssueComment IssueCommentAction.Edited iC3 cC3)).pings = [])
    ∧ (handle envC3 (fun l => l)
          (.IssueComment IssueCommentAction.Created iC3 cC3)).ops =
        ((mentionLoop envC3 (.IssueComment IssueCommentAction.Created iC3 cC3)
            "@alice acknowledge https://x" ("Comment on " ++ iC3.title)
            ((fun l => l) (capsList "@alice acknowledge https://x"))
            ((ackLoop envC3 (.IssueComment IssueCommentAction.Created iC3 cC3)
              (extract_acks "@alice acknowledge https://x") initSt).1)).1).ops :=
  ⟨⟨(C3_thm envC3 (fun l => l) IssuesAction.Edited IssueCommentAction.Edited iC3 cC3
      (by decide) (by decide)).1.1,
    (C3_thm envC3 (fun l => l) IssuesAction.Edited IssueCommentAction.Edited iC3 cC3
      (by decide) (by decide)).2.1.1⟩,
   (C3_thm envC3 (fun l => l) IssuesAction.Edited IssueCommentAction.Edited iC3 cC3
      (by decide) (by decide)).2.2.2.2 "@alice acknowledge https://x"
      ((ackLoop envC3 (.IssueComment IssueCommentAction.Created iC3 cC3)
        (extract_acks "@alice acknowledge https://x") initSt).1) rfl rfl⟩

/-- Claim C4: for every event with a text body whose acting user has a
resolved id, with a working database client, the acknowledgement pass runs
before anything else and regardless of the gate: the trace starts with
exactly one deletion per captured acknowledgement URL, in scan order,
keyed by the acting user's id, and no later trace entry is a deletion. -/
theorem C4_thm (env : Env) (order : List String → List String) (ev : Event)
    (body : String) (uid : Int)
    (hbody : ev.comment_body = some body)
    (hid : (eventActor ev).id = some uid)
    (hdb : env.make_db_client = .ok ()) :
    ∃ rest, (handle env order ev).ops =
        (extract_acks body).map (fun url => LedgerOp.delete_ping uid url) ++ rest
      ∧ rest.filterMap deleteKey = []
      ∧ (handle env order ev).deletes =
          (extract_acks body).map (fun url => (uid, url)) := by
  rcases ackLoop_run env ev uid hid hdb (extract_acks body) initSt with ⟨lg, hack⟩
  have hh := handle_eq env order ev body hbody
  rw [hack] at hh
  set stA : St :=
    { ops := initSt.ops ++ (extract_acks body).map (fun url => LedgerOp.delete_ping uid url),
      logs := initSt.logs ++ lg, seen := initSt.seen } with hstA
  have hopsA : stA.ops = (extract_acks body).map (fun url => LedgerOp.delete_ping uid url) := by
    rw [hstA]
    simp [initSt]
  by_cases hg1 : issueGateSkips ev = true
  · simp only [hg1, if_true] at hh
    refine ⟨[], ?_, by simp, ?_⟩
    · rw [hh]
      show stA.ops = _
      rw [hopsA, List.append_nil]
    · show (handle env order ev).ops.filterMap deleteKey = _
      rw [hh]
      show stA.ops.filterMap deleteKey = _
      rw [hopsA, filterMap_deleteKey_map]
  · by_cases hg2 : commentGateSkips ev = true
    · simp only [hg1, hg2, if_true, if_false, Bool.false_eq_true] at hh
      refine ⟨[], ?_, by simp, ?_⟩
      · rw [hh]
        show stA.ops = _
        rw [hopsA, List.append_nil]
      · show (handle env order ev).ops.filterMap deleteKey = _
        rw [hh]
        show stA.ops.filterMap deleteKey = _
        rw [hopsA, filterMap_deleteKey_map]
    · simp only [hg1, hg2, Bool.false_eq_true, if_false] at hh
      rcases hml : mentionLoop env ev body (shortDescription ev)
          (order (capsList body)) stA with ⟨st', out⟩
      rcases mentionLoop_ops env ev body (shortDescription ev)
          (order (capsList body)) stA with ⟨d, hd, hdel⟩
      rw [hml] at hd hh
      simp only at hd
      have hops : (handle env order ev).ops = st'.ops := by
        rw [hh]
        cases out <;> rfl
      refine ⟨d, ?_, hdel, ?_⟩
      · rw [hops, hd]
        simp [initSt]
      · show (handle env order ev).ops.filterMap deleteKey = _
        rw [hops, hd]
        simp only [initSt, List.nil_append]
        rw [List.filterMap_append, hdel, filterMap_deleteKey_map, List.append_nil]

/-- Witness for the C4 theorem at a concrete gate-suppressed input. -/
theorem C4_wit :
    ∃ rest, (handle envC4 (fun l => l) evC4).ops =
        (extract_acks "acknowledge https://x @alice").map
          (fun url => LedgerOp.delete_ping 2 url) ++ rest
      ∧ rest.filterMap deleteKey = []
      ∧ (handle envC4 (fun l => l) evC4).deletes =
          (extract_acks "acknowledge https://x @alice").map (fun url => (2, url)) :=
  C4_thm envC4 (fun l => l) evC4 "acknowledge https://x @alice" 2 rfl rfl rfl

/-- Recorded ids distribute over trace concatenation. -/
theorem pingIds_append (l1 l2 : List LedgerOp) :
    pingIds (l1 ++ l2) = pingIds l1 ++ pingIds l2 := by
  simp [pingIds, List.filterMap_append]

/-- A deletion step records no notification id. -/
theorem pingIds_ackDelSt (env : Env) (i : Int) (url : String) (st : St) :
    pingIds ((ackDelSt env i url st).ops) = pingIds st.ops := by
  rw [ackDelSt_ops, pingIds_append]
  simp [pingIds, pingKey]

/-- A username-recording step records no notification id. -/
theorem pingIds_recordUserSt (env : Env) (uid : Int) (login : String) (st : St) :
    pingIds ((recordUserSt env uid login st).ops) = pingIds st.ops := by
  rw [recordUserSt_ops, pingIds_append]
  simp [pingIds, pingKey]

/-- A notification-recording step appends exactly its user id. -/
theorem pingIds_recordPingSt (env : Env) (n : Notification) (st : St) :
    pingIds ((recordPingSt env n st).ops) = pingIds st.ops ++ [n.user_id] := by
  rw [recordPingSt_ops, pingIds_append]
  simp [pingIds, pingKey]

/-- The acknowledgement loop preserves the dedup invariant. -/
theorem ackLoop_inv (env : Env) (ev : Event) :
    ∀ urls st, SeenInv st → SeenInv ((ackLoop env ev urls st).1) := by
  intro urls
  induction urls with
  | nil => intro st h; exact h
  | cons url rest ih =>
    intro st h
    rw [ackLoop]
    cases (eventActor ev).id with
    | none => exact ⟨h.1, h.2⟩
    | some i =>
      cases env.make_db_client with
      | error e => exact h
      | ok u =>
        refine ih (ackDelSt env i url st) ⟨?_, ?_⟩
        · rw [pingIds_ackDelSt]; exact h.1
        · rw [pingIds_ackDelSt, ackDelSt_seen]; exact h.2

/-- The recording loop preserves the dedup invariant: an id is recorded
only when absent from `users_notified`, and is added to it on recording. -/
theorem recordLoop_inv (env : Env) (ev : Event) (body sd : String)
    (tn : Option String) :
    ∀ users st, SeenInv st → SeenInv ((recordLoop env ev body sd tn users st).st) := by
  intro users
  induction users with
  | nil => intro st h; exact h
  | cons user rest ih =>
    intro st h
    rw [recordLoop]
    cases user.id with
    | none => exact h
    | some uid =>
      by_cases hseen : uid ∈ st.seen
      · simp only [hseen, if_true]
        exact ih st h
      · simp only [hseen, if_false]
        have hUser : SeenInv (recordUserSt env uid user.login
            { st with seen := st.seen ++ [uid] }) := by
          refine ⟨?_, ?_⟩
          · rw [pingIds_recordUserSt]; exact h.1
          · rw [pingIds_recordUserSt, recordUserSt_seen]
            intro i hi
            exact List.mem_append_left _ (h.2 i hi)
        cases ev.html_url with
        | none => exact hUser
        | some url =>
          refine ih _ ⟨?_, ?_⟩
          · rw [pingIds_recordPingSt, pingIds_recordUserSt]
            rw [List.nodup_append]
            refine ⟨h.1, List.nodup_singleton _, ?_⟩
            intro a ha hb
            rw [List.mem_singleton] at hb
            subst hb
            exact hseen (h.2 a ha)
          · rw [pingIds_recordPingSt, pingIds_recordUserSt, recordPingSt_seen,
              recordUserSt_seen]
            intro i hi
            rcases List.mem_append.mp hi with hi | hi
            · exact List.mem_append_left _ (h.2 i hi)
            · rw [List.mem_singleton] at hi
              subst hi
              exact List.mem_append_right _ (List.mem_singleton_self _)

/-- One mention token preserves the dedup invariant. -/
theorem processToken_inv (env : Env) (ev : Event) (body sd login : String)
    (st : St) (h : SeenInv st) :
    SeenInv ((processToken env ev body sd login st).st) := by
  unfold processToken
  split
  · split
    · split
      · split
        · exact recordLoop_inv env ev body sd _ _ _ h
        · exact h
      · exact h
      · exact h
    · exact h
  · split
    · exact h
    · exact h
    · split
      · exact recordLoop_inv env ev body sd _ _ _ h
      · exact h

/-- The mention loop preserves the dedup invariant. -/
theorem mentionLoop_inv (env : Env) (ev : Event) (body sd : String) :
    ∀ logins st, SeenInv st → SeenInv ((mentionLoop env ev body sd logins st).1) := by
  intro logins
  induction logins with
  | nil => intro st h; exact h
  | cons login rest ih =>
    intro st h
    rw [mentionLoop]
    have hpt := processToken_inv env ev body sd login st h
    rcases hres : processToken env ev body sd login st with st' | ⟨st', r⟩
    · rw [hres] at hpt
      exact ih st' hpt
    · rw [hres] at hpt
      exact hpt

/-- Claim C1: for every processed event, at most one notification is
recorded per distinct numeric user id — the user ids of the recorded
notifications are pairwise distinct, for every environment, every token
iteration order and every event. -/
theorem C1_thm (env : Env) (order : List String → List String) (ev : Event) :
    ((handle env order ev).pings.map Notification.user_id).Nodup := by
  cases hbody : ev.comment_body with
  | none =>
    rw [handle_none env order ev hbody]
    simp [HandleOut.pings]
  | some body =>
    have hh := handle_eq env order ev body hbody
    rcases hack : ackLoop env ev (extract_acks body) initSt with ⟨stA, out⟩
    rw [hack] at hh
    have hA : SeenInv stA := by
      have h0 := ackLoop_inv env ev (extract_acks body) initSt
        ⟨by simp [initSt, pingIds], by simp [initSt, pingIds]⟩
      rw [hack] at h0
      exact h0
    cases out with
    | some r =>
      rw [hh]
      exact hA.1
    | none =>
      by_cases hg1 : issueGateSkips ev = true
      · simp only [hg1, if_true] at hh
        rw [hh]
        exact hA.1
      · by_cases hg2 : commentGateSkips ev = true
        · simp only [hg1, hg2, if_true, if_false, Bool.false_eq_true] at hh
          rw [hh]
          exact hA.1
        · simp only [hg1, hg2, Bool.false_eq_true, if_false] at hh
          rcases hml : mentionLoop env ev body (shortDescription ev)
              (order (capsList body)) stA with ⟨st', mout⟩
          have hI : SeenInv st' := by
            have h1 := mentionLoop_inv env ev body (shortDescription ev)
              (order (capsList body)) stA hA
            rw [hml] at h1
            exact h1
          rw [hml] at hh
          rw [hh]
          cases mout <;> exact hI.1

/-- A deletion step has the same trace and dedup effect under environments
differing only in ledger outcomes. -/
theorem ackDelSt_eq (env env' : Env) (i : Int) (url : String) (st st' : St)
    (h : StEq st st') : StEq (ackDelSt env i url st) (ackDelSt env' i url st') := by
  constructor
  · rw [ackDelSt_ops, ackDelSt_ops, h.1]
  · rw [ackDelSt_seen, ackDelSt_seen]; exact h.2

/-- A username-recording step has the same trace and dedup effect under
environments differing only in ledger outcomes. -/
theorem recordUserSt_eq (env env' : Env) (uid : Int) (login : String)
    (st st' : St) (h : StEq st st') :
    StEq (recordUserSt env uid login st) (recordUserSt env' uid login st') := by
  constructor
  · rw [recordUserSt_ops, recordUserSt_ops, h.1]
  · rw [recordUserSt_seen, recordUserSt_seen]; exact h.2

/-- A notification-recording step has the same trace and dedup effect
under environments differing only in ledger outcomes. -/
theorem recordPingSt_eq (env env' : Env) (n : Notification) (st st' : St)
    (h : StEq st st') :
    StEq (recordPingSt env n st) (recordPingSt env' n st') := by
  constructor
  · rw [recordPingSt_ops, recordPingSt_ops, h.1]
  · rw [recordPingSt_seen, recordPingSt_seen]; exact h.2

/-- The acknowledgement loop has the same trace, dedup set and outcome
under environments that agree outside the ledger outcomes. -/
theorem ackLoop_agree (env env' : Env) (ev : Event) (hag : LedgerAgree env env') :
    ∀ urls st st', StEq st st' →
      StEq ((ackLoop env ev urls st).1) ((ackLoop env' ev urls st').1)
      ∧ (ackLoop env ev urls st).2 = (ackLoop env' ev urls st').2 := by
  intro urls
  induction urls with
  | nil => intro st st' h; exact ⟨h, rfl⟩
  | cons url rest ih =>
    intro st st' h
    rw [ackLoop, ackLoop]
    cases (eventActor ev).id with
    | none => exact ⟨⟨h.1, h.2⟩, rfl⟩
    | some i =>
      rw [← hag.2.2]
      cases env.make_db_client with
      | error e => exact ⟨h, rfl⟩
      | ok u =>
        exact ih (ackDelSt env i url st) (ackDelSt env' i url st')
          (ackDelSt_eq env env' i url st st' h)

/-- The recording loop has the same trace, dedup set and outcome under
environments that agree outside the ledger outcomes. -/
theorem recordLoop_agree (env env' : Env) (ev : Event) (body sd : String)
    (tn : Option String) :
    ∀ users st st', StEq st st' →
      ResEq (recordLoop env ev body sd tn users st)
        (recordLoop env' ev body sd tn users st') := by
  intro users
  induction users with
  | nil => intro st st' h; exact ⟨h, rfl⟩
  | cons user rest ih =>
    intro st st' h
    rw [recordLoop, recordLoop]
    cases user.id with
    | none => exact ⟨h, rfl⟩
    | some uid =>
      by_cases hseen : uid ∈ st.seen
      · have hseen' : uid ∈ st'.seen := h.2 ▸ hseen
        simp only [hseen, hseen', if_true]
        exact ih st st' h
      · have hseen' : uid ∉ st'.seen := fun hx => hseen (h.2.symm ▸ hx)
        simp only [hseen, hseen', if_false]
        have hbase : StEq ({ st with seen := st.seen ++ [uid] })
            ({ st' with seen := st'.seen ++ [uid] }) := ⟨h.1, by rw [h.2]⟩
        cases ev.html_url with
        | none =>
          exact ⟨recordUserSt_eq env env' uid user.login _ _ hbase, rfl⟩
        | some url =>
          exact ih _ _ (recordPingSt_eq env env' _ _ _
            (recordUserSt_eq env env' uid user.login _ _ hbase))

/-- One mention token has the same trace, dedup set and outcome under
environments that agree outside the ledger outcomes. -/
theorem processToken_agree (env env' : Env) (hag : LedgerAgree env env')
    (ev : Event) (body sd login : String) (st st' : St) (h : StEq st st') :
    ResEq (processToken env ev body sd login st)
      (processToken env' ev body sd login st') := by
  by_cases hc : '/' ∈ login.data
  · rcases splitSlash_two login.data hc with ⟨ns, tn, ps, hs⟩
    cases hteam : env.get_team (String.mk tn) with
    | error e =>
      have hteam' : env'.get_team (String.mk tn) = .error e := by
        rw [← hag.1]; exact hteam
      simp only [processToken, hc, if_true, hs, hteam, hteam']
      exact ⟨⟨h.1, h.2⟩, rfl⟩
    | ok o =>
      have hteam' : env'.get_team (String.mk tn) = .ok o := by
        rw [← hag.1]; exact hteam
      cases o with
      | none =>
        simp only [processToken, hc, if_true, hs, hteam, hteam']
        exact ⟨⟨h.1, h.2⟩, rfl⟩
      | some team =>
        cases hcol : collectUsers team.members with
        | error e =>
          simp only [processToken, hc, if_true, hs, hteam, hteam', hcol]
          exact ⟨⟨h.1, h.2⟩, rfl⟩
        | ok users =>
          simp only [processToken, hc, if_true, hs, hteam, hteam', hcol]
          exact recordLoop_agree env env' ev body sd (some team.name) users st st' h
  · cases hgi : env.get_id login with
    | error e =>
      have hgi' : env'.get_id login = .error e := by
        rw [← hag.2.1]; exact hgi
      simp only [processToken, hc, if_false, hgi, hgi']
      exact ⟨h, rfl⟩
    | ok o =>
      have hgi' : env'.get_id login = .ok o := by
        rw [← hag.2.1]; exact hgi
      cases o with
      | none =>
        simp only [processToken, hc, if_false, hgi, hgi']
        exact ⟨⟨h.1, h.2⟩, rfl⟩
      | some n =>
        cases hconv : i64_try_from n with
        | error e =>
          simp only [processToken, hc, if_false, hgi, hgi', hconv]
          exact ⟨⟨h.1, h.2⟩, rfl⟩
        | ok i =>
          simp only [processToken, hc, if_false, hgi, hgi', hconv]
          exact recordLoop_agree env env' ev body sd none
            [{ login := login, id := some i }] st st' h

/-- The mention loop has the same trace, dedup set and outcome under
environments that agree outside the ledger outcomes. -/
theorem mentionLoop_agree (env env' : Env) (hag : LedgerAgree env env')
    (ev : Event) (body sd : String) :
    ∀ logins st st', StEq st st' →
      StEq ((mentionLoop env ev body sd logins st).1)
        ((mentionLoop env' ev body sd logins st').1)
      ∧ (mentionLoop env ev body sd logins st).2
        = (mentionLoop env' ev body sd logins st').2 := by
  intro logins
  induction logins with
  | nil => intro st st' h; exact ⟨h, rfl⟩
  | cons login rest ih =>
    intro st st' h
    have hpt := processToken_agree env env' hag ev body sd login st st' h
    rw [mentionLoop, mentionLoop]
    rcases hr : processToken env ev body sd login st with s1 | ⟨s1, r1⟩ <;>
      rcases hr' : processToken env' ev body sd login st' with s2 | ⟨s2, r2⟩
    · rw [hr, hr'] at hpt
      exact ih s1 s2 hpt.1
    · rw [hr, hr'] at hpt
      exact absurd hpt.2 (by simp [StepRes.out])
    · rw [hr, hr'] at hpt
      exact absurd hpt.2 (by simp [StepRes.out])
    · rw [hr, hr'] at hpt
      have hr12 : r1 = r2 := by
        have := hpt.2
        simp only [StepRes.out, Option.some.injEq] at this
        exact this
      exact ⟨hpt.1, by rw [hr12]⟩

/-- With a working database client the acknowledgement loop can only stop
with `Ok(())`, never with an error. -/
theorem ackLoop_no_err (env : Env) (ev : Event)
    (hdb : env.make_db_client = .ok ()) :
    ∀ urls st r, (ackLoop env ev urls st).2 = some r → r = .ok := by
  intro urls
  induction urls with
  | nil =>
    intro st r h
    cases (show (none : Option HandleResult) = some r from h)
  | cons url rest ih =>
    intro st r h
    rw [ackLoop] at h
    cases hid : (eventActor ev).id with
    | none =>
      rw [hid] at h
      cases (show some HandleResult.ok = some r from h)
      rfl
    | some i =>
      rw [hid, hdb] at h
      exact ih (ackDelSt env i url st) r h

/-- The recording loop stops early only by panicking. -/
theorem recordLoop_stop_panic (env : Env) (ev : Event) (body sd : String)
    (tn : Option String) :
    ∀ users st st' r, recordLoop env ev body sd tn users st = .stop st' r →
      ∃ m, r = .panic m := by
  intro users
  induction users with
  | nil =>
    intro st st' r h
    cases (show StepRes.next st = StepRes.stop st' r from h)
  | cons user rest ih =>
    intro st st' r h
    rw [recordLoop] at h
    cases hid : user.id with
    | none =>
      rw [hid] at h
      cases (show StepRes.stop st (.panic idUnwrapMsg) = StepRes.stop st' r from h)
      exact ⟨idUnwrapMsg, rfl⟩
    | some uid =>
      rw [hid] at h
      by_cases hseen : uid ∈ st.seen
      · simp only [hseen, if_true] at h
        exact ih st st' r h
      · simp only [hseen, if_false] at h
        cases hurl : ev.html_url with
        | none =>
          rw [hurl] at h
          cases (show StepRes.stop
              (recordUserSt env uid user.login { st with seen := st.seen ++ [uid] })
              (.panic urlUnwrapMsg) = StepRes.stop st' r from h)
          exact ⟨urlUnwrapMsg, rfl⟩
        | some url =>
          rw [hurl] at h
          exact ih _ st' r h

/-- When no individual lookup returns a transport error, a mention token
stops early only by panicking. -/
theorem processToken_stop (env : Env) (ev : Event) (body sd login : String)
    (st st' : St) (r : HandleResult)
    (hge : ∀ l e, env.get_id l ≠ .error e)
    (h : processToken env ev body sd login st = .stop st' r) :
    ∃ m, r = .panic m := by
  by_cases hc : '/' ∈ login.data
  · rcases splitSlash_two login.data hc with ⟨ns, tn, ps, hs⟩
    cases hteam : env.get_team (String.mk tn) with
    | error e =>
      simp only [processToken, hc, if_true, hs, hteam] at h
      cases (show StepRes.next _ = StepRes.stop st' r from h)
    | ok o =>
      cases o with
      | none =>
        simp only [processToken, hc, if_true, hs, hteam] at h
        cases (show StepRes.next _ = StepRes.stop st' r from h)
      | some team =>
        cases hcol : collectUsers team.members with
        | error e =>
          simp only [processToken, hc, if_true, hs, hteam, hcol] at h
          cases (show StepRes.next _ = StepRes.stop st' r from h)
        | ok users =>
          simp only [processToken, hc, if_true, hs, hteam, hcol] at h
          exact recordLoop_stop_panic env ev body sd (some team.name) users st st' r h
  · cases hgi : env.get_id login with
    | error e => exact absurd hgi (hge login e)
    | ok o =>
      cases o with
      | none =>
        simp only [processToken, hc, if_false, hgi] at h
        cases (show StepRes.next _ = StepRes.stop st' r from h)
      | some n =>
        cases hconv : i64_try_from n with
        | error e =>
          simp only [processToken, hc, if_false, hgi, hconv] at h
          cases (show StepRes.next _ = StepRes.stop st' r from h)
        | ok i =>
          simp only [processToken, hc, if_false, hgi, hconv] at h
          exact recordLoop_stop_panic env ev body sd none
            [{ login := login, id := some i }] st st' r h

/-- When no individual lookup returns a transport error, the mention loop
stops early only by panicking. -/
theorem mentionLoop_out (env : Env) (ev : Event) (body sd : String)
    (hge : ∀ l e, env.get_id l ≠ .error e) :
    ∀ logins st st' r, mentionLoop env ev body sd logins st = (st', some r) →
      ∃ m, r = .panic m := by
  intro logins
  induction logins with
  | nil =>
    intro st st' r h
    simp [mentionLoop] at h
  | cons login rest ih =>
    intro st st' r h
    rw [mentionLoop] at h
    rcases hpt : processToken env ev body sd login st with s1 | ⟨s1, r1⟩
    · rw [hpt] at h
      exact ih s1 st' r h
    · rw [hpt] at h
      have hp : (s1, some r1) = (st', some r) := h
      have hr : r1 = r := by
        have := congrArg Prod.snd hp
        simpa using this
      rcases processToken_stop env ev body sd login st s1 r1 hge hpt with ⟨m, hm⟩
      exact ⟨m, hr ▸ hm⟩

/-- Claim C2 (corrected): failures of the three ledger operations never
change the control flow, the invoked operations or the result of `handle`
(they are caught and logged); and when no individual login lookup returns
a transport error and the database client can be created, `handle` never
returns an error — the remaining early exits are the no-op `Ok(())` paths
and panics.  (The counterexample shows the two uncaught failure sources:
`get_id` transport errors and `make_db_client` failures propagate.) -/
theorem C2_amended_thm (env env' : Env) (order : List String → List String)
    (ev : Event) :
    (LedgerAgree env env' →
      (handle env order ev).ops = (handle env' order ev).ops
      ∧ (handle env order ev).result = (handle env' order ev).result)
    ∧ ((∀ l e, env.get_id l ≠ .error e) → env.make_db_client = .ok () →
      ∀ e, (handle env order ev).result ≠ .err e) := by
  constructor
  · intro hag
    cases hbody : ev.comment_body with
    | none =>
      rw [handle_none env order ev hbody, handle_none env' order ev hbody]
      exact ⟨rfl, rfl⟩
    | some body =>
      have hh := handle_eq env order ev body hbody
      have hh' := handle_eq env' order ev body hbody
      have hAg := ackLoop_agree env env' ev hag (extract_acks body) initSt initSt
        ⟨rfl, rfl⟩
      rcases hack : ackLoop env ev (extract_acks body) initSt with ⟨stA, out⟩
      rcases hack' : ackLoop env' ev (extract_acks body) initSt with ⟨stA', out'⟩
      rw [hack] at hh
      rw [hack'] at hh'
      rw [hack, hack'] at hAg
      have hout : out = out' := hAg.2
      subst hout
      cases out with
      | some r =>
        rw [hh, hh']
        exact ⟨hAg.1.1, rfl⟩
      | none =>
        by_cases hg1 : issueGateSkips ev = true
        · simp only [hg1, if_true] at hh hh'
          rw [hh, hh']
          exact ⟨hAg.1.1, rfl⟩
        · by_cases hg2 : commentGateSkips ev = true
          · simp only [hg1, hg2, if_true, if_false, Bool.false_eq_true] at hh hh'
            rw [hh, hh']
            exact ⟨hAg.1.1, rfl⟩
          · simp only [hg1, hg2, Bool.false_eq_true, if_false] at hh hh'
            have hMg := mentionLoop_agree env env' hag ev body (shortDescription ev)
              (order (capsList body)) stA stA' hAg.1
            rcases hml : mentionLoop env ev body (shortDescription ev)
                (order (capsList body)) stA with ⟨st1, mout⟩
            rcases hml' : mentionLoop env' ev body (shortDescription ev)
                (order (capsList body)) stA' with ⟨st1', mout'⟩
            rw [hml] at hh
            rw [hml'] at hh'
            rw [hml, hml'] at hMg
            have hmout : mout = mout' := hMg.2
            subst hmout
            cases mout with
            | some r =>
              rw [hh, hh']
              exact ⟨hMg.1.1, rfl⟩
            | none =>
              rw [hh, hh']
              exact ⟨hMg.1.1, rfl⟩
  · intro hge hdb e
    cases hbody : ev.comment_body with
    | none =>
      rw [handle_none env order ev hbody]
      simp
    | some body =>
      have hh := handle_eq env order ev body hbody
      rcases hack : ackLoop env ev (extract_acks body) initSt with ⟨stA, out⟩
      rw [hack] at hh
      cases out with
      | some r =>
        have hr : r = .ok := by
          refine ackLoop_no_err env ev hdb (extract_acks body) initSt r ?_
          rw [hack]
        subst hr
        rw [hh]
        simp
      | none =>
        by_cases hg1 : issueGateSkips ev = true
        · simp only [hg1, if_true] at hh
          rw [hh]
          simp
        · by_cases hg2 : commentGateSkips ev = true
          · simp only [hg1, hg2, if_true, if_false, Bool.false_eq_true] at hh
            rw [hh]
            simp
          · simp only [hg1, hg2, Bool.false_eq_true, if_false] at hh
            rcases hml : mentionLoop env ev body (shortDescription ev)
                (order (capsList body)) stA with ⟨st1, mout⟩
            rw [hml] at hh
            cases mout with
            | some r =>
              rcases mentionLoop_out env ev body (shortDescription ev) hge
                  (order (capsList body)) stA st1 r hml with ⟨m, hm⟩
              subst hm
              rw [hh]
              simp
            | none =>
              rw [hh]
              simp

/-- Witness for the corrected C2 theorem at a concrete input: failing
ledger operations leave the trace and the result unchanged, and the
result is never an error. -/
theorem C2_amended_wit :
    ((handle envC2w (fun l => l) evC2w).ops = (handle envC2w' (fun l => l) evC2w).ops
      ∧ (handle envC2w (fun l => l) evC2w).result
        = (handle envC2w' (fun l => l) evC2w).result)
    ∧ ∀ e, (handle envC2w (fun l => l) evC2w).result ≠ .err e :=
  ⟨(C2_amended_thm envC2w envC2w' (fun l => l) evC2w).1 ⟨rfl, rfl, rfl⟩,
   (C2_amended_thm envC2w envC2w' (fun l => l) evC2w).2
     (by
       intro l e h
       by_cases hl : l = "alice" <;> simp [envC2w, hl] at h)
     rfl⟩

/-- A successful member conversion yields a user with a resolved id whose
conversion succeeded. -/
theorem convMember_ok (m : TeamMember) (u : User) (h : convMember m = .ok u) :
    ∃ i, u.id = some i ∧ i64_try_from m.github_id = .ok i := by
  unfold convMember at h
  cases hconv : i64_try_from m.github_id with
  | error e => rw [hconv] at h; cases h
  | ok i =>
    rw [hconv] at h
    cases h
    exact ⟨i, rfl, rfl⟩

/-- Every user produced by a successful `collect` comes from a member of
the list. -/
theorem collectUsers_mem (members : List TeamMember) (users : List User)
    (h : collectUsers members = .ok users) :
    ∀ u ∈ users, ∃ m ∈ members, convMember m = .ok u := by
  induction members generalizing users with
  | nil =>
    rw [collectUsers] at h
    cases h
    intro u hu
    cases hu
  | cons a rest ih =>
    rw [collectUsers] at h
    cases hca : convMember a with
    | error e => rw [hca] at h; cases h
    | ok u0 =>
      rw [hca] at h
      cases hcr : collectUsers rest with
      | error e => rw [hcr] at h; cases h
      | ok us =>
        rw [hcr] at h
        cases h
        intro u hu
        rcases List.mem_cons.mp hu with rfl | hu
        · exact ⟨a, List.mem_cons_self _ _, hca⟩
        · rcases ih us hcr u hu with ⟨m, hm, hcm⟩
          exact ⟨m, List.mem_cons_of_mem _ hm, hcm⟩

/-- When every user in the list carries a resolved id, the recording loop
never panics on `user.id.unwrap()`: its only early exit is the
`html_url.unwrap()` panic. -/
theorem recordLoop_stop_not_id (env : Env) (ev : Event) (body sd : String)
    (tn : Option String) :
    ∀ users st st' r, (∀ u ∈ users, (u.id).isSome = true) →
      recordLoop env ev body sd tn users st = .stop st' r →
      r = .panic urlUnwrapMsg := by
  intro users
  induction users with
  | nil =>
    intro st st' r _ h
    cases (show StepRes.next st = StepRes.stop st' r from h)
  | cons user rest ih =>
    intro st st' r hall h
    rw [recordLoop] at h
    cases hid : user.id with
    | none =>
      have := hall user (List.mem_cons_self _ _)
      rw [hid] at this
      cases this
    | some uid =>
      rw [hid] at h
      have hrest := fun u hu => hall u (List.mem_cons_of_mem _ hu)
      by_cases hseen : uid ∈ st.seen
      · simp only [hseen, if_true] at h
        exact ih st st' r hrest h
      · simp only [hseen, if_false] at h
        cases hurl : ev.html_url with
        | none =>
          rw [hurl] at h
          cases (show StepRes.stop
              (recordUserSt env uid user.login { st with seen := st.seen ++ [uid] })
              (.panic urlUnwrapMsg) = StepRes.stop st' r from h)
          rfl
        | some url =>
          rw [hurl] at h
          exact ih _ st' r hrest h

/-- A mention token never stops `handle` with the `user.id.unwrap()`
panic. -/
theorem processToken_no_idpanic (env : Env) (ev : Event) (body sd login : String)
    (st st' : St) (r : HandleResult)
    (h : processToken env ev body sd login st = .stop st' r) :
    r ≠ .panic idUnwrapMsg := by
  have hmsg : urlUnwrapMsg ≠ idUnwrapMsg := by decide
  by_cases hc : '/' ∈ login.data
  · rcases splitSlash_two login.data hc with ⟨ns, tn, ps, hs⟩
    cases hteam : env.get_team (String.mk tn) with
    | error e =>
      simp only [processToken, hc, if_true, hs, hteam] at h
      cases (show StepRes.next _ = StepRes.stop st' r from h)
    | ok o =>
      cases o with
      | none =>
        simp only [processToken, hc, if_true, hs, hteam] at h
        cases (show StepRes.next _ = StepRes.stop st' r from h)
      | some team =>
        cases hcol : collectUsers team.members with
        | error e =>
          simp only [processToken, hc, if_true, hs, hteam, hcol] at h
          cases (show StepRes.next _ = StepRes.stop st' r from h)
        | ok users =>
          simp only [processToken, hc, if_true, hs, hteam, hcol] at h
          have hall : ∀ u ∈ users, (u.id).isSome = true := by
            intro u hu
            rcases collectUsers_mem team.members users hcol u hu with ⟨m, _, hcm⟩
            rcases convMember_ok m u hcm with ⟨i, hi, _⟩
            rw [hi]
            rfl
          have := recordLoop_stop_not_id env ev body sd (some team.name)
            users st st' r hall h
          rw [this]
          intro hx
          exact hmsg (HandleResult.panic.injEq _ _ ▸ hx)
  · cases hgi : env.get_id login with
    | error e =>
      simp only [processToken, hc, if_false, hgi] at h
      cases (show StepRes.stop st (.err ("failed to get user " ++ login ++ " ID"))
          = StepRes.stop st' r from h)
      intro hx
      cases hx
    | ok o =>
      cases o with
      | none =>
        simp only [processToken, hc, if_false, hgi] at h
        cases (show StepRes.next _ = StepRes.stop st' r from h)
      | some n =>
        cases hconv : i64_try_from n with
        | error e =>
          simp only [processToken, hc, if_false, hgi, hconv] at h
          cases (show StepRes.next _ = StepRes.stop st' r from h)
        | ok i =>
          simp only [processToken, hc, if_false, hgi, hconv] at h
          have hall : ∀ u ∈ [({ login := login, id := some i } : User)],
              (u.id).isSome = true := by
            intro u hu
            rw [List.mem_singleton] at hu
            subst hu
            rfl
          have := recordLoop_stop_not_id env ev body sd none _ st st' r hall h
          rw [this]
          intro hx
          exact hmsg (HandleResult.panic.injEq _ _ ▸ hx)

/-- The mention loop never stops `handle` with the `user.id.unwrap()`
panic. -/
theorem mentionLoop_no_idpanic (env : Env) (ev : Event) (body sd : String) :
    ∀ logins st st' r, mentionLoop env ev body sd logins st = (st', some r) →
      r ≠ .panic idUnwrapMsg := by
  intro logins
  induction logins with
  | nil =>
    intro st st' r h
    simp [mentionLoop] at h
  | cons login rest ih =>
    intro st st' r h
    rw [mentionLoop] at h
    rcases hpt : processToken env ev body sd login st with s1 | ⟨s1, r1⟩
    · rw [hpt] at h
      exact ih s1 st' r h
    · rw [hpt] at h
      have hp : (s1, some r1) = (st', some r) := h
      have hr : r1 = r := by
        have := congrArg Prod.snd hp
        simpa using this
      exact hr ▸ processToken_no_idpanic env ev body sd login st s1 r1 hpt

/-- The acknowledgement loop stops only with `Ok(())` or a propagated
database-client error, never with a panic. -/
theorem ackLoop_stop_res (env : Env) (ev : Event) :
    ∀ urls st r, (ackLoop env ev urls st).2 = some r →
      r = .ok ∨ ∃ e, r = .err e := by
  intro urls
  induction urls with
  | nil =>
    intro st r h
    cases (show (none : Option HandleResult) = some r from h)
  | cons url rest ih =>
    intro st r h
    rw [ackLoop] at h
    cases hid : (eventActor ev).id with
    | none =>
      rw [hid] at h
      cases (show some HandleResult.ok = some r from h)
      exact .inl rfl
    | some i =>
      rw [hid] at h
      cases hdb : env.make_db_client with
      | error e =>
        rw [hdb] at h
        cases (show some (HandleResult.err e) = some r from h)
        exact .inr ⟨e, rfl⟩
      | ok u =>
        rw [hdb] at h
        exact ih (ackDelSt env i url st) r h

/-- A deletion step preserves resolvedness of the recorded ids. -/
theorem ackDelSt_resolved (env envR : Env) (i : Int) (url : String) (st : St)
    (h : PingsResolved envR st.ops) :
    PingsResolved envR ((ackDelSt env i url st).ops) := by
  intro n hn
  rw [ackDelSt_ops, List.filterMap_append] at hn
  rcases List.mem_append.mp hn with hn | hn
  · exact h n hn
  · simp [pingKey] at hn

/-- A username-recording step preserves resolvedness of the recorded
ids. -/
theorem recordUserSt_resolved (env envR : Env) (uid : Int) (login : String)
    (st : St) (h : PingsResolved envR st.ops) :
    PingsResolved envR ((recordUserSt env uid login st).ops) := by
  intro n hn
  rw [recordUserSt_ops, List.filterMap_append] at hn
  rcases List.mem_append.mp hn with hn | hn
  · exact h n hn
  · simp [pingKey] at hn

/-- The acknowledgement loop preserves resolvedness of the recorded ids. -/
theorem ackLoop_resolved (env envR : Env) (ev : Event) :
    ∀ urls st, PingsResolved envR st.ops →
      PingsResolved envR ((ackLoop env ev urls st).1).ops := by
  intro urls
  induction urls with
  | nil => intro st h; exact h
  | cons url rest ih =>
    intro st h
    rw [ackLoop]
    cases (eventActor ev).id with
    | none => exact h
    | some i =>
      cases env.make_db_client with
      | error e => exact h
      | ok u => exact ih (ackDelSt env i url st) (ackDelSt_resolved env envR i url st h)

/-- The recording loop records only ids of the users it is given, so
resolvedness of those ids is preserved into the trace. -/
theorem recordLoop_resolved (env : Env) (ev : Event) (body sd : String)
    (tn : Option String) :
    ∀ users st, (∀ u ∈ users, ∃ j, u.id = some j ∧ ResolvedId env j) →
      PingsResolved env st.ops →
      PingsResolved env ((recordLoop env ev body sd tn users st).st).ops := by
  intro users
  induction users with
  | nil => intro st _ h; exact h
  | cons user rest ih =>
    intro st hall h
    rw [recordLoop]
    cases hid : user.id with
    | none => exact h
    | some uid =>
      have hres : ResolvedId env uid := by
        rcases hall user (List.mem_cons_self _ _) with ⟨j, hj, hrj⟩
        rw [hid] at hj
        cases hj
        exact hrj
      have hrest := fun u hu => hall u (List.mem_cons_of_mem _ hu)
      by_cases hseen : uid ∈ st.seen
      · simp only [hseen, if_true]
        exact ih st hrest h
      · simp only [hseen, if_false]
        have hUser : PingsResolved env
            ((recordUserSt env uid user.login { st with seen := st.seen ++ [uid] }).ops) :=
          recordUserSt_resolved env env uid user.login _ h
        cases ev.html_url with
        | none => exact hUser
        | some url =>
          refine ih _ hrest ?_
          intro n hn
          rw [recordPingSt_ops, List.filterMap_append] at hn
          rcases List.mem_append.mp hn with hn | hn
          · exact hUser n hn
          · simp only [List.filterMap_cons, pingKey, List.filterMap_nil] at hn
            rw [List.mem_singleton] at hn
            subst hn
            exact hres

/-- One mention token records only resolved ids. -/
theorem processToken_resolved (env : Env) (ev : Event) (body sd login : String)
    (st : St) (h : PingsResolved env st.ops) :
    PingsResolved env ((processToken env ev body sd login st).st).ops := by
  by_cases hc : '/' ∈ login.data
  · rcases splitSlash_two login.data hc with ⟨ns, tn, ps, hs⟩
    cases hteam : env.get_team (String.mk tn) with
    | error e =>
      simp only [processToken, hc, if_true, hs, hteam]
      exact h
    | ok o =>
      cases o with
      | none =>
        simp only [processToken, hc, if_true, hs, hteam]
        exact h
      | some team =>
        cases hcol : collectUsers team.members with
        | error e =>
          simp only [processToken, hc, if_true, hs, hteam, hcol]
          exact h
        | ok users =>
          simp only [processToken, hc, if_true, hs, hteam, hcol]
          refine recordLoop_resolved env ev body sd (some team.name) users st ?_ h
          intro u hu
          rcases collectUsers_mem team.members users hcol u hu with ⟨m, hm, hcm⟩
          rcases convMember_ok m u hcm with ⟨i, hi, hconv⟩
          exact ⟨i, hi, .inr ⟨String.mk tn, team, m, hteam, hm, hconv⟩⟩
  · cases hgi : env.get_id login with
    | error e =>
      simp only [processToken, hc, if_false, hgi]
      exact h
    | ok o =>
      cases o with
      | none =>
        simp only [processToken, hc, if_false, hgi]
        exact h
      | some n =>
        cases hconv : i64_try_from n with
        | error e =>
          simp only [processToken, hc, if_false, hgi, hconv]
          exact h
        | ok i =>
          simp only [processToken, hc, if_false, hgi, hconv]
          refine recordLoop_resolved env ev body sd none _ st ?_ h
          intro u hu
          rw [List.mem_singleton] at hu
          subst hu
          exact ⟨i, rfl, .inl ⟨login, n, hgi, hconv⟩⟩

/-- The mention loop records only resolved ids. -/
theorem mentionLoop_resolved (env : Env) (ev : Event) (body sd : String) :
    ∀ logins st, PingsResolved env st.ops →
      PingsResolved env ((mentionLoop env ev body sd logins st).1).ops := by
  intro logins
  induction logins with
  | nil => intro st h; exact h
  | cons login rest ih =>
    intro st h
    rw [mentionLoop]
    have hpt := processToken_resolved env ev body sd login st h
    rcases hres : processToken env ev body sd login st with s1 | ⟨s1, r1⟩
    · rw [hres] at hpt
      exact ih s1 hpt
    · rw [hres] at hpt
      exact hpt

/-- Claim C7: a notification is never recorded for a user without a
resolved numeric id: `handle` never panics on `user.id.unwrap()`; every
recorded notification's id was obtained from a successful resolution
(an individual lookup or a team-member conversion); and a login that
resolves to no id is silently dropped — the token is skipped with a trace
log, not an error. -/
theorem C7_thm (env : Env) (order : List String → List String) (ev : Event) :
    (handle env order ev).result ≠ .panic idUnwrapMsg
    ∧ (∀ n ∈ (handle env order ev).pings, ResolvedId env n.user_id)
    ∧ (∀ body sd login st, '/' ∉ login.data → env.get_id login = .ok none →
        processToken env ev body sd login st =
          .next { st with logs :=
            st.logs ++ ["Skipping " ++ login ++ " because no id found"] }) := by
  refine ⟨?_, ?_, ?_⟩
  case refine_3 =>
    intro body sd login st hc hgi
    simp [processToken, hc, hgi]
  all_goals
    cases hbody : ev.comment_body with
    | none =>
      rw [handle_none env order ev hbody]
      first
        | simp
        | (intro n hn; simp [HandleOut.pings] at hn)
    | some body =>
      have hh := handle_eq env order ev body hbody
      rcases hack : ackLoop env ev (extract_acks body) initSt with ⟨stA, out⟩
      rw [hack] at hh
      have hA : PingsResolved env stA.ops := by
        have h0 := ackLoop_resolved env env ev (extract_acks body) initSt
          (by intro n hn; simp [initSt] at hn)
        rw [hack] at h0
        exact h0
      cases out with
      | some r =>
        have hres : r = .ok ∨ ∃ e, r = .err e := by
          refine ackLoop_stop_res env ev (extract_acks body) initSt r ?_
          rw [hack]
        rw [hh]
        first
          | (show r ≠ HandleResult.panic idUnwrapMsg
             rcases hres with rfl | ⟨e, rfl⟩ <;> simp)
          | (show ∀ n ∈ (stA.ops.filterMap pingKey), ResolvedId env n.user_id
             exact hA)
      | none =>
        by_cases hg1 : issueGateSkips ev = true
        · simp only [hg1, if_true] at hh
          rw [hh]
          first
            | exact hA
            | simp
        · by_cases hg2 : commentGateSkips ev = true
          · simp only [hg1, hg2, if_true, if_false, Bool.false_eq_true] at hh
            rw [hh]
            first
              | exact hA
              | simp
          · simp only [hg1, hg2, Bool.false_eq_true, if_false] at hh
            rcases hml : mentionLoop env ev body (shortDescription ev)
                (order (capsList body)) stA with ⟨st1, mout⟩
            have hM : PingsResolved env st1.ops := by
              have h1 := mentionLoop_resolved env ev body (shortDescription ev)
                (order (capsList body)) stA hA
              rw [hml] at h1
              exact h1
            rw [hml] at hh
            cases mout with
            | some r =>
              rw [hh]
              first
                | exact mentionLoop_no_idpanic env ev body (shortDescription ev)
                    (order (capsList body)) stA st1 r hml
                | exact hM
            | none =>
              rw [hh]
              first
                | exact hM
                | simp

/-- Witness for the C7 theorem: an unresolvable login is skipped with a
trace log, not an error. -/
theorem C7_wit :
    processToken envC7 evC7 "b" "t" "zoe" initSt =
      .next { initSt with logs :=
        initSt.logs ++ ["Skipping zoe because no id found"] } :=
  (C7_thm envC7 (fun l => l) evC7).2.2 "b" "t" "zoe" initSt (by decide) rfl

/-- Every user produced by the spec-level token resolution carries a
resolved id. -/
theorem resolveMention_ids (env : Env) (login : String) :
    ∀ u ∈ (resolveMention env login).1, ∃ j, u.id = some j := by
  by_cases hc : '/' ∈ login.data
  · rcases hsp : splitSlash login.data with _ | ⟨a, _ | ⟨b, ps⟩⟩
    · simp [resolveMention, hc, hsp]
    · simp [resolveMention, hc, hsp]
    · cases hteam : env.get_team (String.mk b) with
      | error e => simp [resolveMention, hc, hsp, hteam]
      | ok o =>
        cases o with
        | none => simp [resolveMention, hc, hsp, hteam]
        | some team =>
          cases hcol : collectUsers team.members with
          | error e => simp [resolveMention, hc, hsp, hteam, hcol]
          | ok users =>
            simp only [resolveMention, hc, if_true, hsp, hteam, hcol]
            intro u hu
            rcases collectUsers_mem team.members users hcol u hu with ⟨m, _, hcm⟩
            rcases convMember_ok m u hcm with ⟨i, hi, _⟩
            exact ⟨i, hi⟩
  · cases hgi : env.get_id login with
    | error e => simp [resolveMention, hc, hgi]
    | ok o =>
      cases o with
      | none => simp [resolveMention, hc, hgi]
      | some n =>
        cases hconv : i64_try_from n with
        | error e => simp [resolveMention, hc, hgi, hconv]
        | ok i =>
          simp only [resolveMention, hc, if_false, hgi, hconv]
          intro u hu
          rw [List.mem_singleton] at hu
          subst hu
          exact ⟨i, rfl⟩

/-- Bridge between the implementation's token step and the spec-level
resolution: when individual lookups cannot fail with a transport error,
one token step is exactly the recording loop over the users the token
resolves to (after some log emissions). -/
theorem processToken_eq (env : Env) (ev : Event) (body sd login : String)
    (hge : ∀ l e, env.get_id l ≠ .error e) (st : St) :
    ∃ lg, processToken env ev body sd login st =
      recordLoop env ev body sd (resolveMention env login).2
        (resolveMention env login).1 { st with logs := st.logs ++ lg } := by
  by_cases hc : '/' ∈ login.data
  · rcases splitSlash_two login.data hc with ⟨ns, tn, ps, hs⟩
    cases hteam : env.get_team (String.mk tn) with
    | error e =>
      refine ⟨["team ping (" ++ login ++ ") failed to resolve to a known team"], ?_⟩
      simp [processToken, resolveMention, hc, hs, hteam, recordLoop]
    | ok o =>
      cases o with
      | none =>
        refine ⟨["team ping (" ++ login ++ ") failed to resolve to a known team"], ?_⟩
        simp [processToken, resolveMention, hc, hs, hteam, recordLoop]
      | some team =>
        cases hcol : collectUsers team.members with
        | error e =>
          refine ⟨["getting users failed"], ?_⟩
          simp [processToken, resolveMention, hc, hs, hteam, hcol, recordLoop]
        | ok users =>
          refine ⟨[], ?_⟩
          simp [processToken, resolveMention, hc, hs, hteam, hcol]
  · cases hgi : env.get_id login with
    | error e => exact absurd hgi (hge login e)
    | ok o =>
      cases o with
      | none =>
        refine ⟨["Skipping " ++ login ++ " because no id found"], ?_⟩
        simp [processToken, resolveMention, hc, hgi, recordLoop]
      | some n =>
        cases hconv : i64_try_from n with
        | error e =>
          refine ⟨["getting users failed"], ?_⟩
          simp [processToken, resolveMention, hc, hgi, hconv, recordLoop]
        | ok i =>
          refine ⟨[], ?_⟩
          simp [processToken, resolveMention, hc, hgi, hconv]

/-- When some token in the list resolves to at least one user, the event
has no canonical URL and the dedup set is still empty, the mention loop
panics on `html_url().unwrap()`. -/
theorem mentionLoop_panic (env : Env) (ev : Event) (body sd : String)
    (hge : ∀ l e, env.get_id l ≠ .error e) (hurl : ev.html_url = none) :
    ∀ logins st, st.seen = [] →
      (∃ login ∈ logins, (resolveMention env login).1 ≠ []) →
      (mentionLoop env ev body sd logins st).2 = some (.panic urlUnwrapMsg) := by
  intro logins
  induction logins with
  | nil =>
    intro st _ hex
    rcases hex with ⟨l, hl, _⟩
    cases hl
  | cons login rest ih =>
    intro st hseen hex
    rcases processToken_eq env ev body sd login hge st with ⟨lg, hpt⟩
    by_cases hres : (resolveMention env login).1 = []
    · rw [mentionLoop, hpt, hres]
      show (mentionLoop env ev body sd rest { st with logs := st.logs ++ lg }).2 = _
      refine ih _ hseen ?_
      rcases hex with ⟨l, hl, hne⟩
      rcases List.mem_cons.mp hl with rfl | hl
      · exact absurd hres hne
      · exact ⟨l, hl, hne⟩
    · rcases hlist : (resolveMention env login).1 with _ | ⟨u, us⟩
      · exact absurd hlist hres
      · rcases resolveMention_ids env login u (by rw [hlist]; exact List.mem_cons_self _ _)
          with ⟨j, hj⟩
        rw [mentionLoop, hpt, hlist, recordLoop, hj]
        have hnotin : j ∉ ({ st with logs := st.logs ++ lg }).seen := by
          show j ∉ st.seen
          rw [hseen]
          exact List.not_mem_nil j
        simp only [hnotin, if_false, hurl]

/-- Claim C10: on an event with a text body that passes the gate, whose
acknowledgement pass completes, whose canonical URL accessor yields
`none`, and whose mention tokens resolve to at least one user (with no
individual-lookup transport error), `handle` panics on
`event.html_url().unwrap()` instead of returning. -/
theorem C10_thm (env : Env) (order : List String → List String) (ev : Event)
    (body : String)
    (hbody : ev.comment_body = some body)
    (hurl : ev.html_url = none)
    (hg1 : issueGateSkips ev = false)
    (hg2 : commentGateSkips ev = false)
    (hack : (ackLoop env ev (extract_acks body) initSt).2 = none)
    (hge : ∀ l e, env.get_id l ≠ .error e)
    (hres : ∃ login ∈ order (capsList body), (resolveMention env login).1 ≠ []) :
    (handle env order ev).result = .panic urlUnwrapMsg := by
  have hh := handle_eq env order ev body hbody
  rcases hackp : ackLoop env ev (extract_acks body) initSt with ⟨stA, out⟩
  rw [hackp] at hh hack
  have hout : out = none := hack
  subst hout
  have hseenA : stA.seen = [] := by
    have h0 := ackLoop_seen env ev (extract_acks body) initSt
    rw [hackp] at h0
    exact h0
  simp only [hg1, hg2, Bool.false_eq_true, if_false] at hh
  have hm := mentionLoop_panic env ev body (shortDescription ev) hge hurl
    (order (capsList body)) stA hseenA hres
  rcases hml : mentionLoop env ev body (shortDescription ev)
      (order (capsList body)) stA with ⟨st1, mout⟩
  rw [hml] at hm hh
  have hmout : mout = some (.panic urlUnwrapMsg) := hm
  subst hmout
  rw [hh]

/-- Witness for the C10 theorem at a concrete input. -/
theorem C10_wit :
    (handle envC10 (fun l => l) evC10).result = .panic urlUnwrapMsg :=
  C10_thm envC10 (fun l => l) evC10 "@alice" rfl rfl rfl rfl rfl
    (by
      intro l e h
      by_cases hl : l = "alice" <;> simp [envC10, hl] at h)
    (by decide)

/-- Recorded pairs distribute over trace concatenation. -/
theorem pingPairs_append (l1 l2 : List LedgerOp) :
    pingPairs (l1 ++ l2) = pingPairs l1 ++ pingPairs l2 := by
  simp [pingPairs, List.filterMap_append]

/-- A username-recording step records no pair. -/
theorem pingPairs_recordUserSt (env : Env) (uid : Int) (login : String) (st : St) :
    pingPairs ((recordUserSt env uid login st).ops) = pingPairs st.ops := by
  rw [recordUserSt_ops, pingPairs_append]
  simp [pingPairs, pingKey]

/-- A notification-recording step appends exactly its pair. -/
theorem pingPairs_recordPingSt (env : Env) (n : Notification) (st : St) :
    pingPairs ((recordPingSt env n st).ops)
      = pingPairs st.ops ++ [(n.user_id, n.team_name)] := by
  rw [recordPingSt_ops, pingPairs_append]
  simp [pingPairs, pingKey]

/-- The recording loop implements the spec-level user fold: it completes
with `.next`, emits one pair per not-yet-seen id in traversal order, and
extends the seen set identically. -/
theorem recordLoop_spec (env : Env) (ev : Event) (body sd : String)
    (tn : Option String) (url : String) (hurl : ev.html_url = some url) :
    ∀ users st, (∀ u ∈ users, ∃ j, u.id = some j) →
      ∃ st', recordLoop env ev body sd tn users st = .next st'
        ∧ pingPairs st'.ops = pingPairs st.ops ++ (specUserFold tn users st.seen).1
        ∧ st'.seen = (specUserFold tn users st.seen).2 := by
  intro users
  induction users with
  | nil =>
    intro st _
    exact ⟨st, rfl, by simp [specUserFold], by simp [specUserFold]⟩
  | cons user rest ih =>
    intro st hall
    rcases hall user (List.mem_cons_self _ _) with ⟨j, hj⟩
    have hrest := fun u hu => hall u (List.mem_cons_of_mem _ hu)
    rw [recordLoop, hj]
    by_cases hseen : j ∈ st.seen
    · simp only [hseen, if_true]
      rcases ih st hrest with ⟨st', h1, h2, h3⟩
      refine ⟨st', h1, ?_, ?_⟩
      · rw [h2]
        simp only [specUserFold, hj]
        simp [hseen]
      · rw [h3]
        simp only [specUserFold, hj]
        simp [hseen]
    · simp only [hseen, if_false]
      rw [hurl]
      rcases ih (recordPingSt env (mkNotif ev body sd tn j url)
          (recordUserSt env j user.login { st with seen := st.seen ++ [j] }))
        hrest with ⟨st', h1, h2, h3⟩
      have hseenP : (recordPingSt env (mkNotif ev body sd tn j url)
          (recordUserSt env j user.login { st with seen := st.seen ++ [j] })).seen
          = st.seen ++ [j] := by
        rw [recordPingSt_seen, recordUserSt_seen]
      have hpairsP : pingPairs (recordPingSt env (mkNotif ev body sd tn j url)
          (recordUserSt env j user.login { st with seen := st.seen ++ [j] })).ops
          = pingPairs st.ops ++ [(j, tn)] := by
        rw [pingPairs_recordPingSt, pingPairs_recordUserSt]
        rfl
      refine ⟨st', h1, ?_, ?_⟩
      · rw [h2, hpairsP, hseenP]
        simp only [specUserFold, hj]
        simp [hseen, List.append_assoc]
      · rw [h3, hseenP]
        simp only [specUserFold, hj]
        simp [hseen]

/-- The mention loop implements the spec-level mention pass: with no
individual-lookup transport errors and a present canonical URL it
completes normally, and the recorded (id, team name) pairs are exactly
those of the spec fold over the tokens in processing order. -/
theorem mentionLoop_spec (env : Env) (ev : Event) (body sd : String)
    (hge : ∀ l e, env.get_id l ≠ .error e) (url : String)
    (hurl : ev.html_url = some url) :
    ∀ logins st, ∃ st', mentionLoop env ev body sd logins st = (st', none)
      ∧ pingPairs st'.ops = pingPairs st.ops ++ specRecords env logins st.seen := by
  intro logins
  induction logins with
  | nil => intro st; exact ⟨st, rfl, by simp [specRecords]⟩
  | cons login rest ih =>
    intro st
    rcases processToken_eq env ev body sd login hge st with ⟨lg, hpt⟩
    rcases recordLoop_spec env ev body sd (resolveMention env login).2 url hurl
        (resolveMention env login).1 { st with logs := st.logs ++ lg }
        (resolveMention_ids env login) with ⟨st1, h1, h2, h3⟩
    rcases ih st1 with ⟨st', h4, h5⟩
    refine ⟨st', ?_, ?_⟩
    · rw [mentionLoop, hpt, h1]
      show mentionLoop env ev body sd rest st1 = (st', none)
      exact h4
    · rw [h5, h2]
      simp only [specRecords]
      rw [h3]
      show pingPairs st.ops ++ _ ++ _ = _
      rw [List.append_assoc]

/-- Claim C9 counterexample: in the body, the direct mention of `alice`
(id 7) occurs before the team token `t/core` in scan order, so the claim
predicts `team_name = none` for id 7; but the tokens are iterated in
`HashSet` order, and under the admissible reversed order the recorded
notification for id 7 carries the team's name instead. -/
theorem C9_cex :
    capsList "hi @alice, see @t/core" = ["alice", "t/core"]
    ∧ (List.reverse (capsList "hi @alice, see @t/core")).Perm
        (capsList "hi @alice, see @t/core")
    ∧ (handle envC9 List.reverse evC9).pings.map (fun n => (n.user_id, n.team_name))
        = [(7, some "Core"), (9, some "Core")]
    ∧ (handle envC9 (fun l => l) evC9).pings.map (fun n => (n.user_id, n.team_name))
        = [(7, none), (9, some "Core")] :=
  ⟨by decide, List.reverse_perm _, by decide, by decide⟩

/-- Claim C9 (corrected): mention tokens are processed after the
acknowledgement pass in the `HashSet` iteration order — an arbitrary
enumeration of the deduplicated raw tokens, not necessarily scan order —
and when one id is reachable through several tokens, the recorded
notification carries the `team_name` of the first occurrence in that
processing order: the recorded (id, team name) pairs are exactly the
spec-level first-occurrence-wins fold over the tokens in processing
order. -/
theorem C9_amended_thm (env : Env) (order : List String → List String)
    (ev : Event) (body url : String)
    (hbody : ev.comment_body = some body)
    (hurl : ev.html_url = some url)
    (hg1 : issueGateSkips ev = false)
    (hg2 : commentGateSkips ev = false)
    (hack : (ackLoop env ev (extract_acks body) initSt).2 = none)
    (hge : ∀ l e, env.get_id l ≠ .error e) :
    (handle env order ev).pings.map (fun n => (n.user_id, n.team_name))
      = specRecords env (order (capsList body)) [] := by
  have hh := handle_eq env order ev body hbody
  rcases hackp : ackLoop env ev (extract_acks body) initSt with ⟨stA, out⟩
  rw [hackp] at hh hack
  have hout : out = none := hack
  subst hout
  have hseenA : stA.seen = [] := by
    have h0 := ackLoop_seen env ev (extract_acks body) initSt
    rw [hackp] at h0
    exact h0
  have hpairsA : pingPairs stA.ops = [] := by
    have hall : ∀ op ∈ stA.ops, ∃ u r, op = LedgerOp.delete_ping u r := by
      intro op hop
      have hmem : op ∈ ((ackLoop env ev (extract_acks body) initSt).1).ops := by
        rw [hackp]; exact hop
      rcases ackLoop_ops env ev (extract_acks body) initSt op hmem with h0 | h0
      · simp [initSt] at h0
      · exact h0
    have hk := (deletes_only_no_records stA.ops hall).1
    simp [pingPairs, hk]
  simp only [hg1, hg2, Bool.false_eq_true, if_false] at hh
  rcases mentionLoop_spec env ev body (shortDescription ev) hge url hurl
      (order (capsList body)) stA with ⟨st1, h1, h2⟩
  rw [h1] at hh
  rw [hh]
  show pingPairs st1.ops = specRecords env (order (capsList body)) []
  rw [h2, hpairsA, hseenA]
  simp

/-- Witness for the corrected C9 theorem at a concrete input. -/
theorem C9_amended_wit :
    (handle envC9 List.reverse evC9).pings.map (fun n => (n.user_id, n.team_name))
      = specRecords envC9 (List.reverse (capsList "hi @alice, see @t/core")) [] :=
  C9_amended_thm envC9 List.reverse evC9 "hi @alice, see @t/core" "https://e/1"
    rfl rfl rfl rfl rfl
    (by
      intro l e h
      by_cases hl : l = "alice" <;> simp [envC9, hl] at h)

/-- Dropping a prefix cannot lengthen a list. -/
theorem length_dropWhile_le (p : Char → Bool) :
    ∀ l : List Char, (l.dropWhile p).length ≤ l.length := by
  intro l
  induction l with
  | nil => simp
  | cons c rest ih =>
    rw [List.dropWhile_cons]
    by_cases hp : p c = true
    · simp only [hp, if_true]
      exact le_trans ih (by simp)
    · simp [hp]

/-- Shift of the positional mention specification across one leading
character. -/
theorem mentionsSpec_cons (c : Char) (l : List Char) :
    mentionsSpec (c :: l) =
      (if isMentionStart (c :: l) 0 then [String.mk (runAt (c :: l) 0)] else [])
        ++ mentionsSpec l := by
  have hf : (fun i => isMentionStart (c :: l) i) ∘ Nat.succ
      = fun i => isMentionStart l i := by
    funext i
    show isMentionStart (c :: l) (i + 1) = isMentionStart l i
    simp [isMentionStart, List.get?_cons_succ]
  have hr : (fun i => String.mk (runAt (c :: l) i)) ∘ Nat.succ
      = fun i => String.mk (runAt l i) := by
    funext i
    show String.mk (runAt (c :: l) (i + 1)) = String.mk (runAt l i)
    simp [runAt, List.drop_succ_cons]
  unfold mentionsSpec
  rw [List.length_cons, List.range_succ_eq_map, List.filter_cons]
  by_cases h0 : isMentionStart (c :: l) 0 = true
  · rw [if_pos h0, if_pos h0, List.map_cons, List.filter_map, List.map_map, hf, hr]
    rfl
  · rw [if_neg h0, if_neg h0, List.filter_map, List.map_map, hf, hr]
    rfl

/-- A prefix consisting of mention characters contributes no mention
start, so the positional specification ignores it. -/
theorem mentionsSpec_absorb : ∀ pre l : List Char,
    (∀ c ∈ pre, isMentionChar c = true) →
    mentionsSpec (pre ++ l) = mentionsSpec l := by
  intro pre
  induction pre with
  | nil => intro l _; rfl
  | cons c pre ih =>
    intro l hpre
    have hcm : isMentionChar c = true := hpre c (List.mem_cons_self _ _)
    have hne : ¬ (c = '@') := by
      intro h
      subst h
      exact absurd hcm (by decide)
    rw [List.cons_append, mentionsSpec_cons]
    have h0 : isMentionStart (c :: (pre ++ l)) 0 = false := by
      cases hx : (pre ++ l) with
      | nil => simp [isMentionStart]
      | cons d t => simp [isMentionStart, hne]
    simp only [h0, Bool.false_eq_true, if_false, List.nil_append]
    exact ih l (fun c hc => hpre c (List.mem_cons_of_mem _ hc))

/-- The fueled `PING_RE` scanner computes the positional specification. -/
theorem pingScanF_spec : ∀ fuel (l : List Char), l.length ≤ fuel →
    pingScanF fuel l = mentionsSpec l := by
  intro fuel
  induction fuel with
  | zero =>
    intro l h
    cases l with
    | nil => rfl
    | cons c rest => simp at h
  | succ fuel ih =>
    intro l h
    cases l with
    | nil => rfl
    | cons c rest =>
      have h' : rest.length ≤ fuel := by
        rw [List.length_cons] at h
        omega
      by_cases hc : c = '@'
      · subst hc
        by_cases hrun : rest.takeWhile isMentionChar = []
        · have hstep : pingScanF (fuel + 1) ('@' :: rest) = pingScanF fuel rest := by
            rw [pingScanF]
            simp [hrun]
          rw [hstep, ih rest h']
          have h0 : isMentionStart ('@' :: rest) 0 = false := by
            cases rest with
            | nil => simp [isMentionStart]
            | cons d t =>
              have hd : isMentionChar d = false := by
                cases hdm : isMentionChar d
                · rfl
                · exfalso
                  rw [List.takeWhile_cons] at hrun
                  simp [hdm] at hrun
              simp [isMentionStart, hd]
          rw [mentionsSpec_cons, h0]
          simp
        · have hlen : (rest.dropWhile isMentionChar).length ≤ fuel :=
            le_trans (length_dropWhile_le _ _) h'
          have hstep : pingScanF (fuel + 1) ('@' :: rest)
              = String.mk (rest.takeWhile isMentionChar)
                  :: pingScanF fuel (rest.dropWhile isMentionChar) := by
            rw [pingScanF]
            simp [hrun]
          rw [hstep, ih _ hlen]
          have h0 : isMentionStart ('@' :: rest) 0 = true := by
            cases rest with
            | nil => simp at hrun
            | cons d t =>
              have hd : isMentionChar d = true := by
                cases hdm : isMentionChar d
                · exfalso
                  apply hrun
                  rw [List.takeWhile_cons]
                  simp [hdm]
                · rfl
              simp [isMentionStart, hd]
          have hrunAt : runAt ('@' :: rest) 0 = rest.takeWhile isMentionChar := by
            simp [runAt]
          rw [mentionsSpec_cons, h0, hrunAt]
          have habs : mentionsSpec rest
              = mentionsSpec (rest.dropWhile isMentionChar) := by
            conv_lhs => rw [← List.takeWhile_append_dropWhile isMentionChar rest]
            exact mentionsSpec_absorb _ _
              (fun c hc => List.mem_takeWhile_imp hc)
          rw [habs]
          simp
      · have hstep : pingScanF (fuel + 1) (c :: rest) = pingScanF fuel rest := by
          rw [pingScanF]
          simp [hc]
        rw [hstep, ih rest h']
        have h0 : isMentionStart (c :: rest) 0 = false := by
          cases rest with
          | nil => simp [isMentionStart]
          | cons d t => simp [isMentionStart, hc]
        rw [mentionsSpec_cons, h0]
        simp

/-- The `PING_RE` scanner computes the positional specification. -/
theorem pingScan_spec (l : List Char) : pingScan l = mentionsSpec l :=
  pingScanF_spec l.length l (le_refl _)

/-- A successful literal drop decomposes the input. -/
theorem dropLit_some : ∀ p l l' : List Char, dropLit p l = some l' → l = p ++ l' := by
  intro p
  induction p with
  | nil =>
    intro l l' h
    cases (show some l = some l' from h)
    rfl
  | cons c ps ih =>
    intro l l' h
    cases l with
    | nil => cases (show (none : Option (List Char)) = some l' from h)
    | cons d t =>
      simp only [dropLit] at h
      by_cases hd : d = c
      · rw [if_pos hd] at h
        rw [List.cons_append, ← ih t l' h, hd]
      · rw [if_neg hd] at h
        cases h

/-- Dropping a literal from itself plus a tail succeeds. -/
theorem dropLit_self : ∀ p l : List Char, dropLit p (p ++ l) = some l := by
  intro p
  induction p with
  | nil => intro l; rfl
  | cons c ps ih =>
    intro l
    rw [List.cons_append]
    simp only [dropLit, if_pos rfl]
    exact ih l

/-- Dropping a concatenated literal proceeds literal by literal. -/
theorem dropLit_append : ∀ p q l : List Char,
    dropLit (p ++ q) (p ++ l) = dropLit q l := by
  intro p
  induction p with
  | nil => intro q l; rfl
  | cons c ps ih =>
    intro q l
    rw [List.cons_append, List.cons_append]
    simp only [dropLit, if_pos rfl]
    exact ih q l

/-- A failing literal drop stays failing after extending the literal. -/
theorem dropLit_none_append : ∀ p q l : List Char,
    dropLit p l = none → dropLit (p ++ q) l = none := by
  intro p
  induction p with
  | nil =>
    intro q l h
    cases (show some l = none from h)
  | cons c ps ih =>
    intro q l h
    cases l with
    | nil => rfl
    | cons d t =>
      simp only [dropLit] at h ⊢
      by_cases hd : d = c
      · rw [if_pos hd] at h ⊢
        exact ih q t h
      · rw [if_neg hd]

/-- A failing literal drop stays failing on any prefix of the input. -/
theorem dropLit_none_prefix : ∀ p l l' : List Char,
    dropLit p l = none → l' <+: l → dropLit p l' = none := by
  intro p
  induction p with
  | nil =>
    intro l l' h _
    cases (show some l = none from h)
  | cons c ps ih =>
    intro l l' h hpre
    cases l with
    | nil =>
      rcases List.prefix_nil.mp hpre with rfl
      rfl
    | cons d t =>
      cases l' with
      | nil => rfl
      | cons d' t' =>
        rcases List.cons_prefix_cons.mp hpre with ⟨rfl, ht⟩
        simp only [dropLit] at h ⊢
        by_cases hd : d' = c
        · rw [if_pos hd] at h ⊢
          exact ih t t' h ht
        · rw [if_neg hd]

/-- Taking while a predicate holds walks through a satisfying prefix. -/
theorem takeWhile_append_sat (q : Char → Bool) :
    ∀ p l : List Char, (∀ c ∈ p, q c = true) →
      (p ++ l).takeWhile q = p ++ l.takeWhile q := by
  intro p
  induction p with
  | nil => intro l _; rfl
  | cons c ps ih =>
    intro l hp
    rw [List.cons_append, List.takeWhile_cons, if_pos (hp c (List.mem_cons_self _ _)),
      List.cons_append, ih l (fun c hc => hp c (List.mem_cons_of_mem _ hc))]

/-- Dropping while a predicate holds walks through a satisfying prefix. -/
theorem dropWhile_append_sat (q : Char → Bool) :
    ∀ p l : List Char, (∀ c ∈ p, q c = true) →
      (p ++ l).dropWhile q = l.dropWhile q := by
  intro p
  induction p with
  | nil => intro l _; rfl
  | cons c ps ih =>
    intro l hp
    rw [List.cons_append, List.dropWhile_cons, if_pos (hp c (List.mem_cons_self _ _))]
    exact ih l (fun c hc => hp c (List.mem_cons_of_mem _ hc))

/-- Two space-free chunks followed by a space decompose uniquely. -/
theorem space_decomp : ∀ p q a b : List Char,
    (∀ c ∈ p, notSpace c = true) → (∀ c ∈ q, notSpace c = true) →
    p ++ ' ' :: a = q ++ ' ' :: b → p = q ∧ a = b := by
  intro p
  induction p with
  | nil =>
    intro q a b _ hq h
    cases q with
    | nil =>
      rw [List.nil_append, List.nil_append] at h
      cases h
      exact ⟨rfl, rfl⟩
    | cons d t =>
      rw [List.nil_append, List.cons_append] at h
      cases h
      have := hq ' ' (List.mem_cons_self _ _)
      simp [notSpace] at this
  | cons c ps ih =>
    intro q a b hp hq h
    cases q with
    | nil =>
      rw [List.nil_append, List.cons_append] at h
      cases h
      have := hp ' ' (List.mem_cons_self _ _)
      simp [notSpace] at this
    | cons d t =>
      rw [List.cons_append, List.cons_append] at h
      injection h with h1 h2
      rcases ih t a b (fun c hc => hp c (List.mem_cons_of_mem _ hc))
        (fun c hc => hq c (List.mem_cons_of_mem _ hc)) h2 with ⟨hpt, hab⟩
      exact ⟨by rw [h1, hpt], hab⟩

/-- Unfolding equation for `urlMatch` when the input does not start with
the literal `http`. -/
theorem urlMatch_of_none (l : List Char) (h : dropLit "http".data l = none) :
    urlMatch l = none := by
  unfold urlMatch
  rw [h]

/-- Unfolding equation for `urlMatch` on an input of the form
`http` `s` followed by the rest. -/
theorem urlMatch_s (t : List Char) :
    urlMatch ("http".data ++ 's' :: t) =
      match dropLit "://".data t with
      | none => none
      | some l4 =>
        if l4.takeWhile notSpace = [] then none
        else some (String.mk ("https://".data ++ l4.takeWhile notSpace),
                   l4.dropWhile notSpace) := by
  cases hdl : dropLit "://".data t with
  | none =>
    unfold urlMatch
    rw [dropLit_self]
    simp only [hdl, if_true, List.cons_append, List.nil_append, List.append_nil,
      List.append_assoc]
  | some l4 =>
    unfold urlMatch
    rw [dropLit_self]
    simp only [hdl, if_true, List.cons_append, List.nil_append, List.append_nil,
      List.append_assoc]

/-- Unfolding equation for `urlMatch` on an input of the form `http`
followed by a rest not starting with `s`. -/
theorem urlMatch_ns (c : Char) (t : List Char) (hc : ¬ c = 's') :
    urlMatch ("http".data ++ c :: t) =
      match dropLit "://".data (c :: t) with
      | none => none
      | some l4 =>
        if l4.takeWhile notSpace = [] then none
        else some (String.mk ("http://".data ++ l4.takeWhile notSpace),
                   l4.dropWhile notSpace) := by
  cases hdl : dropLit "://".data (c :: t) with
  | none =>
    unfold urlMatch
    rw [dropLit_self]
    simp only [if_neg hc, hdl, List.cons_append, List.nil_append, List.append_nil,
      List.append_assoc]
  | some l4 =>
    unfold urlMatch
    rw [dropLit_self]
    simp only [if_neg hc, hdl, List.cons_append, List.nil_append, List.append_nil,
      List.append_assoc]

theorem urlMatch_word (rest2 : List Char) :
    urlMatch rest2 =
      if validUrl (rest2.takeWhile notSpace) then
        some (String.mk (rest2.takeWhile notSpace), rest2.dropWhile notSpace)
      else none := by
  have hhttp_ns : ∀ c ∈ ("http".data : List Char), notSpace c = true := by decide
  have hsep_ns : ∀ c ∈ ("://".data : List Char), notSpace c = true := by decide
  cases h4 : dropLit "http".data rest2 with
  | none =>
    have hp : dropLit "http".data (rest2.takeWhile notSpace) = none :=
      dropLit_none_prefix _ _ _ h4 (List.takeWhile_prefix _)
    have hb1 : dropLit "http://".data (rest2.takeWhile notSpace) = none := by
      rw [show ("http://".data : List Char) = "http".data ++ "://".data from rfl]
      exact dropLit_none_append _ _ _ hp
    have hb2 : dropLit "https://".data (rest2.takeWhile notSpace) = none := by
      rw [show ("https://".data : List Char) = "http".data ++ "s://".data from rfl]
      exact dropLit_none_append _ _ _ hp
    have hv : validUrl (rest2.takeWhile notSpace) = false := by
      unfold validUrl
      rw [hb1, hb2]
    rw [urlMatch_of_none rest2 h4, hv]
    simp
  | some l2 =>
    have hr2 : rest2 = "http".data ++ l2 := dropLit_some _ _ _ h4
    subst hr2
    rw [takeWhile_append_sat notSpace "http".data l2 hhttp_ns,
      dropWhile_append_sat notSpace "http".data l2 hhttp_ns]
    cases l2 with
    | nil =>
      have hv : validUrl ("http".data ++ ([] : List Char).takeWhile notSpace) = false := by
        decide
      rw [hv]
      simp
      rfl
    | cons c2 t2 =>
      by_cases hc2 : c2 = 's'
      · subst hc2
        rw [urlMatch_s t2,
          show ('s' :: t2).takeWhile notSpace = 's' :: t2.takeWhile notSpace from rfl,
          show ('s' :: t2).dropWhile notSpace = t2.dropWhile notSpace from rfl]
        cases h7 : dropLit "://".data t2 with
        | none =>
          have htw : dropLit "://".data (t2.takeWhile notSpace) = none :=
            dropLit_none_prefix _ _ _ h7 (List.takeWhile_prefix _)
          have hb1 : dropLit "http://".data
              ("http".data ++ 's' :: t2.takeWhile notSpace) = none := by
            rw [show ("http://".data : List Char) = "http".data ++ "://".data from rfl,
              dropLit_append]
            rfl
          have hb2 : dropLit "https://".data
              ("http".data ++ 's' :: t2.takeWhile notSpace) = none := by
            rw [show ("https://".data : List Char) = "http".data ++ "s://".data from rfl,
              dropLit_append]
            exact htw
          have hv : validUrl ("http".data ++ 's' :: t2.takeWhile notSpace) = false := by
            unfold validUrl
            rw [hb1, hb2]
          rw [hv]
          simp
        | some l4 =>
          have ht2 : t2 = "://".data ++ l4 := dropLit_some _ _ _ h7
          subst ht2
          rw [takeWhile_append_sat notSpace "://".data l4 hsep_ns,
            dropWhile_append_sat notSpace "://".data l4 hsep_ns]
          by_cases hrun : l4.takeWhile notSpace = []
          · have hv : validUrl
                ("http".data ++ 's' :: ("://".data ++ l4.takeWhile notSpace)) = false := by
              rw [hrun]
              decide
            rw [hv]
            simp [hrun]
          · obtain ⟨r, rs, hlr⟩ := List.exists_cons_of_ne_nil hrun
            have hv : validUrl
                ("http".data ++ 's' :: ("://".data ++ l4.takeWhile notSpace)) = true := by
              rw [show ("http".data ++ 's' :: ("://".data ++ l4.takeWhile notSpace)
                  : List Char) = "https://".data ++ l4.takeWhile notSpace from rfl, hlr]
              rfl
            rw [hv]
            simp [hrun]
      · rw [urlMatch_ns c2 t2 hc2]
        cases h7 : dropLit "://".data (c2 :: t2) with
        | none =>
          have htw : dropLit "://".data ((c2 :: t2).takeWhile notSpace) = none :=
            dropLit_none_prefix _ _ _ h7 (List.takeWhile_prefix _)
          have hb1 : dropLit "http://".data
              ("http".data ++ (c2 :: t2).takeWhile notSpace) = none := by
            rw [show ("http://".data : List Char) = "http".data ++ "://".data from rfl,
              dropLit_append]
            exact htw
          have hb2 : dropLit "https://".data
              ("http".data ++ (c2 :: t2).takeWhile notSpace) = none := by
            rw [show ("https://".data : List Char) = "http".data ++ "s://".data from rfl,
              dropLit_append]
            by_cases hcs : notSpace c2 = true
            · rw [List.takeWhile_cons, if_pos hcs]
              simp only [dropLit]
              rw [if_neg hc2]
            · rw [List.takeWhile_cons, if_neg hcs]
              rfl
          have hv : validUrl ("http".data ++ (c2 :: t2).takeWhile notSpace) = false := by
            unfold validUrl
            rw [hb1, hb2]
          rw [hv]
          simp
        | some l4 =>
          have ht2 : c2 :: t2 = "://".data ++ l4 := dropLit_some _ _ _ h7
          rw [ht2, takeWhile_append_sat notSpace "://".data l4 hsep_ns,
            dropWhile_append_sat notSpace "://".data l4 hsep_ns]
          by_cases hrun : l4.takeWhile notSpace = []
          · have hv : validUrl
                ("http".data ++ ("://".data ++ l4.takeWhile notSpace)) = false := by
              rw [hrun]
              decide
            rw [hv]
            simp [hrun]
          · obtain ⟨r, rs, hlr⟩ := List.exists_cons_of_ne_nil hrun
            have hv : validUrl
                ("http".data ++ ("://".data ++ l4.takeWhile notSpace)) = true := by
              rw [show ("http".data ++ ("://".data ++ l4.takeWhile notSpace)
                  : List Char) = "http://".data ++ l4.takeWhile notSpace from rfl, hlr]
              rfl
            rw [hv]
            simp [hrun]

/-- A match of the acknowledgement regex anywhere needs a space. -/
theorem matchAckAt_spacefree (l : List Char) (h : ∀ c ∈ l, notSpace c = true) :
    matchAckAt l = none := by
  cases hd : dropLit "acknowledge ".data l with
  | none =>
    unfold matchAckAt
    rw [hd]
  | some l1 =>
    have hl : l = "acknowledge ".data ++ l1 := dropLit_some _ _ _ hd
    have hsp : (' ' : Char) ∈ l := by
      rw [hl]
      exact List.mem_append_left _ (by decide)
    have := h ' ' hsp
    simp [notSpace] at this

/-- A successful URL match leaves a remainder no longer than the input. -/
theorem urlMatch_rest_le (l : List Char) (p : String × List Char)
    (h : urlMatch l = some p) : p.2.length ≤ l.length := by
  rw [urlMatch_word] at h
  by_cases hv : validUrl (l.takeWhile notSpace) = true
  · rw [if_pos hv] at h
    cases (show some (String.mk (l.takeWhile notSpace), l.dropWhile notSpace) = some p
      from h)
    exact length_dropWhile_le notSpace l
  · rw [if_neg hv] at h
    cases h

/-- A successful acknowledgement match strictly shrinks the input. -/
theorem matchAckAt_shrink (l : List Char) (p : String × List Char)
    (h : matchAckAt l = some p) : p.2.length < l.length := by
  cases hd : dropLit "acknowledge ".data l with
  | none =>
    unfold matchAckAt at h
    rw [hd] at h
    cases h
  | some l1 =>
    unfold matchAckAt at h
    rw [hd] at h
    have hl : l = "acknowledge ".data ++ l1 := dropLit_some _ _ _ hd
    have h1 : p.2.length ≤ l1.length := urlMatch_rest_le l1 p h
    rw [hl, List.length_append]
    have h2 : 0 < ("acknowledge ".data : List Char).length := by decide
    omega

/-- The fuel of the acknowledgement scanner is irrelevant once sufficient. -/
theorem ackScanF_fuel : ∀ f1 f2 : Nat, ∀ l : List Char,
    l.length ≤ f1 → l.length ≤ f2 → ackScanF f1 l = ackScanF f2 l := by
  intro f1
  induction f1 with
  | zero =>
    intro f2 l h1 _
    rw [List.length_eq_zero.mp (Nat.le_zero.mp h1)]
    cases f2 <;> rfl
  | succ n ih =>
    intro f2 l h1 h2
    cases l with
    | nil => cases f2 <;> rfl
    | cons c rest =>
      rw [List.length_cons] at h1 h2
      cases f2 with
      | zero => exact absurd h2 (by omega)
      | succ g =>
        cases hm : matchAckAt (c :: rest) with
        | none =>
          simp only [ackScanF, hm]
          exact ih g rest (by omega) (by omega)
        | some p =>
          obtain ⟨cap, rest'⟩ := p
          have hs : rest'.length < rest.length + 1 :=
            List.length_cons c rest ▸ matchAckAt_shrink (c :: rest) (cap, rest') hm
          simp only [ackScanF, hm]
          rw [ih g rest' (by omega) (by omega)]

/-- Sufficient fuel computes `ackScan`. -/
theorem ackScanF_eq (f : Nat) (l : List Char) (h : l.length ≤ f) :
    ackScanF f l = ackScan l :=
  ackScanF_fuel f l.length l h (Nat.le_refl _)

/-- Unfolding equation of the acknowledgement scanner. -/
theorem ackScan_cons (c : Char) (rest : List Char) :
    ackScan (c :: rest) = match matchAckAt (c :: rest) with
      | some p => p.1 :: ackScan p.2
      | none => ackScan rest := by
  cases hm : matchAckAt (c :: rest) with
  | none =>
    show ackScanF (rest.length + 1) (c :: rest) = ackScan rest
    simp only [ackScanF, hm]
    exact ackScanF_eq rest.length rest (Nat.le_refl _)
  | some p =>
    obtain ⟨cap, rest'⟩ := p
    have hs : rest'.length < rest.length + 1 :=
      List.length_cons c rest ▸ matchAckAt_shrink (c :: rest) (cap, rest') hm
    show ackScanF (rest.length + 1) (c :: rest) = cap :: ackScan rest'
    simp only [ackScanF, hm]
    rw [ackScanF_eq rest.length rest' (by omega)]

/-- Scanning never matches at a space. -/
theorem ackScan_space (x : List Char) : ackScan (' ' :: x) = ackScan x := by
  rw [ackScan_cons]
  rfl

/-- A space-free text has no acknowledgement match at all. -/
theorem ackScan_nospace : ∀ l : List Char, (∀ c ∈ l, notSpace c = true) →
    ackScan l = [] := by
  intro l
  induction l with
  | nil => intro _; rfl
  | cons c rest ih =>
    intro h
    rw [ackScan_cons, matchAckAt_spacefree _ h]
    exact ih (fun x hx => h x (List.mem_cons_of_mem _ hx))

/-- The head of a nonempty `dropWhile` residue fails the predicate. -/
theorem dropWhile_head_false (q : Char → Bool) :
    ∀ l : List Char, ∀ d : Char, ∀ r : List Char,
      l.dropWhile q = d :: r → q d = false := by
  intro l
  induction l with
  | nil =>
    intro d r h
    cases h
  | cons c t ih =>
    intro d r h
    rw [List.dropWhile_cons] at h
    by_cases hq : q c = true
    · rw [if_pos hq] at h
      exact ih d r h
    · rw [if_neg hq] at h
      cases (show c :: t = d :: r from h)
      cases hqc : q c with
      | false => rfl
      | true => exact absurd hqc hq

/-- The only character failing `notSpace` is the space. -/
theorem notSpace_false (d : Char) (h : notSpace d = false) : d = ' ' := by
  by_contra hd
  simp [notSpace, hd] at h

/-- An empty `dropWhile` residue means the whole list satisfies the
predicate. -/
theorem dropWhile_nil_all (q : Char → Bool) :
    ∀ l : List Char, l.dropWhile q = [] → ∀ c ∈ l, q c = true := by
  intro l
  induction l with
  | nil =>
    intro _ c hc
    cases hc
  | cons a t ih =>
    intro h c hc
    rw [List.dropWhile_cons] at h
    by_cases hq : q a = true
    · rw [if_pos hq] at h
      cases hc with
      | head => exact hq
      | tail _ hm => exact ih h c hm
    · rw [if_neg hq] at h
      cases h

/-- The fuel of the splitter is irrelevant once sufficient. -/
theorem splitSpaceF_fuel : ∀ f1 f2 : Nat, ∀ l : List Char,
    l.length ≤ f1 → l.length ≤ f2 → splitSpaceF f1 l = splitSpaceF f2 l := by
  intro f1
  induction f1 with
  | zero =>
    intro f2 l h1 _
    rw [List.length_eq_zero.mp (Nat.le_zero.mp h1)]
    cases f2 <;> rfl
  | succ n ih =>
    intro f2 l h1 h2
    cases hd : l.dropWhile notSpace with
    | nil =>
      cases f2 with
      | zero => simp only [splitSpaceF, hd]
      | succ g => simp only [splitSpaceF, hd]
    | cons d r =>
      cases l with
      | nil => cases hd
      | cons a t =>
        rw [List.length_cons] at h1 h2
        cases f2 with
        | zero => exact absurd h2 (by omega)
        | succ g =>
          have hr := length_dropWhile_le notSpace (a :: t)
          rw [hd, List.length_cons, List.length_cons] at hr
          simp only [splitSpaceF, hd]
          rw [ih g r (by omega) (by omega)]

/-- A space-free text splits into the single chunk it is. -/
theorem splitSpace_of_nil (l : List Char) (hd : l.dropWhile notSpace = []) :
    splitSpace l = [l.takeWhile notSpace] := by
  cases l with
  | nil => rfl
  | cons a t =>
    show splitSpaceF (t.length + 1) (a :: t) = _
    simp only [splitSpaceF, hd]

/-- Splitting walks one chunk at a time. -/
theorem splitSpace_of_cons (l : List Char) (d : Char) (r : List Char)
    (hd : l.dropWhile notSpace = d :: r) :
    splitSpace l = l.takeWhile notSpace :: splitSpace r := by
  cases l with
  | nil => cases hd
  | cons a t =>
    have hr := length_dropWhile_le notSpace (a :: t)
    rw [hd, List.length_cons, List.length_cons] at hr
    show splitSpaceF (t.length + 1) (a :: t) = _
    simp only [splitSpaceF, hd]
    rw [splitSpaceF_fuel t.length r.length r (by omega) (Nat.le_refl _)]
    rfl

/-- Dropping a space-free literal extended by a space from a space-free
word extended by a space succeeds exactly on the identical word. -/
theorem dropLit_word : ∀ m v : List Char, ∀ r2 : List Char,
    (∀ c ∈ m, notSpace c = true) → (∀ c ∈ v, notSpace c = true) →
    dropLit (m ++ [' ']) (v ++ ' ' :: r2) = if v = m then some r2 else none := by
  intro m
  induction m with
  | nil =>
    intro v r2 _ hv
    cases v with
    | nil => rfl
    | cons a v' =>
      have ha : notSpace a = true := hv a (List.mem_cons_self _ _)
      have ha' : ¬ a = ' ' := by
        intro h
        rw [h] at ha
        simp [notSpace] at ha
      rw [List.nil_append, List.cons_append]
      simp only [dropLit, if_neg ha']
      rw [if_neg (by simp)]
  | cons b m' ih =>
    intro v r2 hm hv
    have hb : notSpace b = true := hm b (List.mem_cons_self _ _)
    have hb' : ¬ (' ' : Char) = b := by
      intro h
      rw [← h] at hb
      simp [notSpace] at hb
    cases v with
    | nil =>
      rw [List.nil_append, List.cons_append]
      simp only [dropLit, if_neg hb']
      rw [if_neg (by simp)]
    | cons a v' =>
      rw [List.cons_append, List.cons_append]
      simp only [dropLit]
      by_cases hab : a = b
      · rw [if_pos hab,
          ih v' r2 (fun c hc => hm c (List.mem_cons_of_mem _ hc))
            (fun c hc => hv c (List.mem_cons_of_mem _ hc))]
        by_cases hvm : v' = m'
        · rw [if_pos hvm, if_pos (by rw [hab, hvm])]
        · rw [if_neg hvm, if_neg (by
            intro h
            cases (show a = b ∧ v' = m' from ⟨hab, List.tail_eq_of_cons_eq h⟩) with
            | intro h1 h2 => exact hvm h2)]
      · rw [if_neg hab, if_neg (by
          intro h
          exact hab (List.head_eq_of_cons_eq h))]

/-- An acknowledgement match against a space-free word followed by a space
succeeds exactly when the word is the literal marker. -/
theorem matchAckAt_word (w r2 : List Char) (hw : ∀ c ∈ w, notSpace c = true) :
    matchAckAt (w ++ ' ' :: r2) =
      if w = "acknowledge".data then urlMatch r2 else none := by
  have hm : dropLit "acknowledge ".data (w ++ ' ' :: r2)
      = if w = "acknowledge".data then some r2 else none := by
    rw [show ("acknowledge ".data : List Char) = "acknowledge".data ++ [' '] from rfl]
    exact dropLit_word _ _ _ (by decide) hw
  unfold matchAckAt
  rw [hm]
  by_cases hwm : w = "acknowledge".data
  · rw [if_pos hwm, if_pos hwm]
  · rw [if_neg hwm, if_neg hwm]

/-- One space-free word followed by a space: the scan either captures the
URL chunk right after a marker-ending word, or moves on to the rest. -/
theorem ackScan_word : ∀ w r2 : List Char, (∀ c ∈ w, notSpace c = true) →
    ackScan (w ++ ' ' :: r2) =
      if markerSuffix w && validUrl (r2.takeWhile notSpace) then
        String.mk (r2.takeWhile notSpace) :: ackScan (r2.dropWhile notSpace)
      else ackScan r2 := by
  intro w
  induction w with
  | nil =>
    intro r2 _
    rw [List.nil_append, ackScan_space]
    rfl
  | cons c w' ih =>
    intro r2 hw
    have hw' : ∀ x ∈ w', notSpace x = true :=
      fun x hx => hw x (List.mem_cons_of_mem _ hx)
    have hm := matchAckAt_word (c :: w') r2 hw
    rw [List.cons_append] at hm
    rw [List.cons_append, ackScan_cons, hm]
    by_cases hwm : c :: w' = "acknowledge".data
    · rw [if_pos hwm, urlMatch_word r2]
      have hms : markerSuffix (c :: w') = true := by
        simp only [markerSuffix, if_pos hwm]
      by_cases hvu : validUrl (r2.takeWhile notSpace) = true
      · rw [if_pos hvu, hms, hvu]
        rfl
      · have h1 : validUrl (r2.takeWhile notSpace) = false := by
          cases hb : validUrl (r2.takeWhile notSpace) with
          | false => rfl
          | true => exact absurd hb hvu
        rw [if_neg hvu]
        show ackScan (w' ++ ' ' :: r2) = _
        have hw'marker : markerSuffix w' = false := by
          have hwt : w' = "cknowledge".data := List.tail_eq_of_cons_eq hwm
          rw [hwt]
          decide
        rw [ih r2 hw', hw'marker, h1, hms]
        rfl
    · rw [if_neg hwm]
      have hms : markerSuffix (c :: w') = markerSuffix w' := by
        simp only [markerSuffix, if_neg hwm]
      show ackScan (w' ++ ' ' :: r2) = _
      rw [ih r2 hw', hms]

/-- The acknowledgement scanner agrees with the word-level specification. -/
theorem acks_main : ∀ n : Nat, ∀ l : List Char, l.length ≤ n →
    ackScan l = acksSpecWords (splitSpace l) := by
  intro n
  induction n with
  | zero =>
    intro l hl
    rw [List.length_eq_zero.mp (Nat.le_zero.mp hl)]
    rfl
  | succ n ih =>
    intro l hl
    cases hd : l.dropWhile notSpace with
    | nil =>
      rw [ackScan_nospace l (dropWhile_nil_all notSpace l hd), splitSpace_of_nil l hd]
      rfl
    | cons d r2 =>
      have hds : d = ' ' := notSpace_false d (dropWhile_head_false notSpace l d r2 hd)
      subst hds
      have hlen := length_dropWhile_le notSpace l
      rw [hd, List.length_cons] at hlen
      have hl2 : l.takeWhile notSpace ++ ' ' :: r2 = l := by
        rw [← hd]
        exact List.takeWhile_append_dropWhile notSpace l
      have hwsp : ∀ c ∈ l.takeWhile notSpace, notSpace c = true :=
        fun c hc => List.mem_takeWhile_imp hc
      have hsp2 : splitSpace (l.takeWhile notSpace ++ ' ' :: r2)
          = l.takeWhile notSpace :: splitSpace r2 := by
        rw [hl2]
        exact splitSpace_of_cons l ' ' r2 hd
      rw [← hl2, hsp2, ackScan_word (l.takeWhile notSpace) r2 hwsp]
      cases hd2 : r2.dropWhile notSpace with
      | nil =>
        rw [splitSpace_of_nil r2 hd2,
          ackScan_nospace r2 (dropWhile_nil_all notSpace r2 hd2)]
        simp only [acksSpecWords]
        by_cases hcond :
            (markerSuffix (l.takeWhile notSpace)
              && validUrl (r2.takeWhile notSpace)) = true
        · rw [if_pos hcond, if_pos hcond]
          rfl
        · rw [if_neg hcond, if_neg hcond]
      | cons e r3 =>
        have hes : e = ' ' :=
          notSpace_false e (dropWhile_head_false notSpace r2 e r3 hd2)
        subst hes
        have hlen2 := length_dropWhile_le notSpace r2
        rw [hd2, List.length_cons] at hlen2
        rw [splitSpace_of_cons r2 ' ' r3 hd2, ackScan_space r3,
          ih r3 (by omega), ih r2 (by omega), splitSpace_of_cons r2 ' ' r3 hd2]
        simp only [acksSpecWords]

/-- `ackScan` meets its word-level specification on every input. -/
theorem ackScan_spec (l : List Char) : ackScan l = acksSpec l :=
  acks_main l.length l (Nat.le_refl _)

/-- Membership in the keep-first deduplication. -/
theorem dedupFirst_mem : ∀ (xs seen : List String) (x : String),
    x ∈ dedupFirst seen xs ↔ (x ∈ xs ∧ x ∉ seen) := by
  intro xs
  induction xs with
  | nil =>
    intro seen x
    simp [dedupFirst]
  | cons y ys ih =>
    intro seen x
    by_cases hy : y ∈ seen
    · simp only [dedupFirst, if_pos hy]
      rw [ih seen x]
      constructor
      · rintro ⟨h1, h2⟩
        exact ⟨List.mem_cons_of_mem _ h1, h2⟩
      · rintro ⟨h1, h2⟩
        cases List.mem_cons.mp h1 with
        | inl he => exact absurd (he ▸ hy) h2
        | inr hm => exact ⟨hm, h2⟩
    · simp only [dedupFirst, if_neg hy]
      rw [List.mem_cons, ih (y :: seen) x]
      constructor
      · rintro (he | ⟨h1, h2⟩)
        · subst he
          exact ⟨List.mem_cons_self _ _, hy⟩
        · exact ⟨List.mem_cons_of_mem _ h1,
            fun hs => h2 (List.mem_cons_of_mem _ hs)⟩
      · rintro ⟨h1, h2⟩
        by_cases he : x = y
        · exact Or.inl he
        · cases List.mem_cons.mp h1 with
          | inl h => exact absurd h he
          | inr hm =>
            exact Or.inr ⟨hm,
              fun hs => (List.mem_cons.mp hs).elim (fun h => he h) (fun h => h2 h)⟩

/-- The keep-first deduplication has no duplicates. -/
theorem dedupFirst_nodup : ∀ (xs seen : List String), (dedupFirst seen xs).Nodup := by
  intro xs
  induction xs with
  | nil =>
    intro seen
    exact List.nodup_nil
  | cons y ys ih =>
    intro seen
    by_cases hy : y ∈ seen
    · simp only [dedupFirst, if_pos hy]
      exact ih seen
    · simp only [dedupFirst, if_neg hy]
      refine List.nodup_cons.mpr ⟨?_, ih (y :: seen)⟩
      intro hmem
      exact ((dedupFirst_mem ys (y :: seen) y).mp hmem).2 (List.mem_cons_self _ _)

/-- The distinct capture set: membership matches the raw scan. -/
theorem capsList_mem (body : String) (s : String) :
    s ∈ capsList body ↔ s ∈ pingScan body.data := by
  unfold capsList
  rw [dedupFirst_mem]
  simp

/-- C8: counterexample to the claimed whitespace-delimited reading of
acknowledgement URLs.  The URL run in `ACKNOWLEDGE_RE` is `[^ ]+`, which
excludes only the ASCII space: a tab is whitespace, yet the capture runs
straight through it, so the extracted URL is not whitespace-delimited. -/
theorem C8_cex :
    Char.isWhitespace (Char.ofNat 9) = true ∧
    extract_acks "acknowledge https://a\tb" = [String.mk
      ('h' :: 't' :: 't' :: 'p' :: 's' :: ':' :: '/' :: '/' :: 'a'
        :: Char.ofNat 9 :: 'b' :: [])] := by
  constructor
  · decide
  · rfl

/-- C8 (amended): the Text Scanner extracts exactly the mention tokens
matching an at sign followed by one or more mention-class characters
(letters, digits, hyphen, underscore, slash), case-preserving, with
duplicates collapsed keeping first occurrences; and extracts the
acknowledgements as the space-delimited URL chunks (ended only by an ASCII
space or the end of the text, so other whitespace stays inside the URL)
following each literal marker word, all of them, in the order found. -/
theorem C8_amended_thm (body : String) :
    pingScan body.data = mentionsSpec body.data ∧
    extract_acks body = acksSpec body.data ∧
    (capsList body).Nodup ∧
    ∀ s : String, s ∈ capsList body ↔ s ∈ pingScan body.data :=
  ⟨pingScan_spec body.data, ackScan_spec body.data,
    dedupFirst_nodup (pingScan body.data) [],
    fun s => capsList_mem body s⟩
